import Mathlib

/-!
# Verification of `sortem.py`

A shallow embedding of the photo-sorting script `sortem.py`.  The script
walks a source tree breadth-first, deletes zero-size files, quarantines
files whose EXIF date cannot be read into `target/outliers`, and moves the
remaining files into `target/YYYY/MM/DD`, resolving filename collisions by
comparing blake2b digests and appending the digest to the name.

The filesystem is modelled as an association list from paths (lists of
name components) to nodes (regular file with byte content, directory, or
symbolic link).  Path resolution follows symbolic links component by
component with a hop budget, mirroring the OS limit on symlink traversal
(ELOOP).  The external collaborators - the EXIF reader and the content
hasher - are parameters of the run model (`Externals`), since the script
treats them as opaque; the internals of the EXIF reader `get_datetime`
are modelled separately for the claims about its fallback logic.
-/

/-- A filesystem path, as a list of name components (absolute, rooted). -/
abbrev FPath := List String

/-- A filesystem node: regular file (with byte content), directory, or
symbolic link (with an absolute target path). -/
inductive Node where
  | file (content : List Nat)
  | dir
  | symlink (target : FPath)
deriving DecidableEq, Repr

/-- A filesystem: association list from paths to nodes.  The root `[]` is
an implicit directory and has no entry. -/
abbrev FS := List (FPath × Node)

/-- Look up the node stored at exactly path `p` (no symlink resolution). -/
def lookupFS (fs : FS) (p : FPath) : Option Node :=
  (fs.find? (fun e => e.1 = p)).map (·.2)

/-- Remove the entry at exactly path `p`. -/
def removeKey (fs : FS) (p : FPath) : FS :=
  fs.filter (fun e => e.1 ≠ p)

/-- Maximum number of symlink hops followed during path resolution,
mirroring the OS bound (resolution fails with ELOOP beyond it). -/
def maxHops : Nat := 40

/-- Walk the remaining components `rest` against the already-resolved
prefix `acc` until the path is fully resolved (`Sum.inl`), a symbolic
link is hit (`Sum.inr (target, remaining)`) or a component is missing
(`none`). -/
def walkStep (fs : FS) (acc : FPath) (rest : List String) :
    Option (FPath ⊕ (FPath × List String)) :=
  match rest with
  | [] => some (Sum.inl acc)
  | c :: cs =>
    match lookupFS fs (acc ++ [c]) with
    | some (Node.symlink t) => some (Sum.inr (t, cs))
    | some _ => walkStep fs (acc ++ [c]) cs
    | none => none

/-- Resolve the remaining components `rest` against the already-resolved
prefix `acc`, following symlinks; `fuel` bounds the total number of
symlink hops in the resolution, as the OS does (ELOOP).  Symlink targets
are taken as absolute paths and resolved from the root. -/
def resolveFrom (fs : FS) (fuel : Nat) (acc : FPath) (rest : List String) :
    Option FPath :=
  match walkStep fs acc rest with
  | none => none
  | some (Sum.inl r) => some r
  | some (Sum.inr (t, cs)) =>
    match fuel with
    | 0 => none
    | Nat.succ f => resolveFrom fs f [] (t ++ cs)

/-- `stat`: resolve `p` fully (following symlinks) and return the node;
the root resolves to an implicit directory. -/
def statNode (fs : FS) (p : FPath) : Option Node :=
  match resolveFrom fs maxHops [] p with
  | none => none
  | some [] => some Node.dir
  | some r => lookupFS fs r

/-- `lstat`: resolve the parent of `p` but not the final component. -/
def lstatNode (fs : FS) (p : FPath) : Option Node :=
  match p.getLast? with
  | none => some Node.dir
  | some last =>
    match resolveFrom fs maxHops [] p.dropLast with
    | none => none
    | some rp => lookupFS fs (rp ++ [last])

/-- `Path.is_dir()`: true when `p` resolves to a directory. -/
def isDirB (fs : FS) (p : FPath) : Bool :=
  match statNode fs p with
  | some Node.dir => true
  | _ => false

/-- `Path.is_file()`: true when `p` resolves to a regular file. -/
def isFileB (fs : FS) (p : FPath) : Bool :=
  match statNode fs p with
  | some (Node.file _) => true
  | _ => false

/-- `Path.is_symlink()`: true when the entry at `p` itself (parent
resolved, final component not followed) is a symbolic link. -/
def isSymlinkB (fs : FS) (p : FPath) : Bool :=
  match lstatNode fs p with
  | some (Node.symlink _) => true
  | _ => false

/-- `Path.exists()`: resolution (following symlinks) succeeds. -/
def pathExistsB (fs : FS) (p : FPath) : Bool :=
  (statNode fs p).isSome

/-- `Path.read_bytes()`: the content of the regular file `p` resolves to. -/
def readBytes (fs : FS) (p : FPath) : Option (List Nat) :=
  match statNode fs p with
  | some (Node.file c) => some c
  | _ => none

/-- Names of the immediate children of the (already resolved) directory
path `r`, in filesystem-list order. -/
def childNames (fs : FS) (r : FPath) : List String :=
  fs.filterMap (fun e =>
    if r.isPrefixOf e.1 && e.1.length == r.length + 1 then e.1.getLast? else none)

/-- `Path.iterdir()`: list the children of the directory `p` resolves to,
presented as children of `p` itself (as `pathlib` does for symlinked
directories); `none` when `p` does not resolve to a directory. -/
def iterdir (fs : FS) (p : FPath) : Option (List FPath) :=
  match resolveFrom fs maxHops [] p with
  | none => none
  | some r =>
    if r = [] || lookupFS fs r == some Node.dir then
      some ((childNames fs r).map (fun n => p ++ [n]))
    else none

/-- Errors that abort the run (uncaught Python exceptions). -/
inductive RunErr where
  | noneType   -- `None` used as a path (`create_if_required` returned `None`)
  | mkdirErr   -- `mkdir(parents=True)` hit a non-directory ancestor
  | statErr    -- `stat()` on a vanished or unreadable path
  | iterdirErr -- `iterdir()` on a non-directory
  | unlinkErr  -- `unlink()` on a missing path
  | renameErr  -- `rename()` failed (missing source or destination parent)
  | readErr    -- `read_bytes()` on a non-file
deriving DecidableEq, Repr

/-- `Path.unlink()`: remove the entry at `p` (parent resolved, final
component not followed); error when there is no such entry. -/
def unlinkFS (fs : FS) (p : FPath) : Except RunErr FS :=
  match p.getLast? with
  | none => .error .unlinkErr
  | some last =>
    match resolveFrom fs maxHops [] p.dropLast with
    | none => .error .unlinkErr
    | some rp =>
      if (lookupFS fs (rp ++ [last])).isSome then
        .ok (removeKey fs (rp ++ [last]))
      else .error .unlinkErr

/-- `Path.rename(dest)`: move the entry at `src` to `dest`, silently
replacing an existing regular file at `dest` (POSIX `rename`); error when
the source is missing, the destination parent is not a directory, or the
destination is an existing directory. -/
def renameFS (fs : FS) (src dest : FPath) : Except RunErr FS :=
  match src.getLast?, dest.getLast? with
  | some ls, some ld =>
    (match resolveFrom fs maxHops [] src.dropLast,
           resolveFrom fs maxHops [] dest.dropLast with
     | some rs, some rd =>
       let s := rs ++ [ls]
       let t := rd ++ [ld]
       match lookupFS fs s with
       | none => .error .renameErr
       | some node =>
         if rd = [] || lookupFS fs rd == some Node.dir then
           match lookupFS fs t with
           | some Node.dir => .error .renameErr
           | _ => .ok ((t, node) :: removeKey (removeKey fs s) t)
         else .error .renameErr
     | _, _ => .error .renameErr)
  | _, _ => .error .renameErr

/-- Helper for `mkdirParents`: walk the components of the path, checking
each existing prefix is a directory and creating the missing ones. -/
def mkdirGo (fs : FS) (acc : FPath) : List String → Except RunErr FS
  | [] => .ok fs
  | c :: cs =>
    let q := acc ++ [c]
    match lookupFS fs q with
    | some Node.dir => mkdirGo fs q cs
    | some _ => .error .mkdirErr
    | none => mkdirGo (fs ++ [(q, Node.dir)]) q cs

/-- `Path.mkdir(parents=True)`: create `p` and all missing ancestors;
error when some existing ancestor (or `p` itself) is occupied by a
non-directory entry. -/
def mkdirParents (fs : FS) (p : FPath) : Except RunErr FS :=
  mkdirGo fs [] p

/-- `Path.name`: the final component. -/
def fname (p : FPath) : String := (p.getLast?).getD ""

/-- The date/time the script extracts from EXIF metadata (only the
calendar fields are used for placement). -/
structure DateT where
  year : Nat
  month : Nat
  day : Nat
deriving DecidableEq, Repr

/-- Python `f-string` formatting `{n:02}`: zero-pad to two digits. -/
def pad2 (n : Nat) : String :=
  if n < 10 then "0" ++ toString n else toString n

/-- The date-partition directory `target/<year>/<month:02>/<day:02>`
(the f-string `f'{y}/{m:02}/{d:02}'` contributes three components). -/
def dateDirPath (target : FPath) (dt : DateT) : FPath :=
  target ++ [toString dt.year, pad2 dt.month, pad2 dt.day]

/-- The external collaborators of the run, treated as opaque functions of
the file content: EXIF date extraction (`get_datetime`, i.e. exiv2 plus
`strptime`) and the content digest (`hashlib.blake2b(...).hexdigest()`). -/
structure Externals where
  getDT : List Nat → Option DateT
  digest : List Nat → String

/-- `create_if_required(p)`: return `p` when it is a directory; return
`None` (modelled `none`) when it exists as a non-directory, after logging
an error; otherwise create it with all missing parents and return it. -/
def createIfRequired (fs : FS) (p : FPath) : Except RunErr (FS × Option FPath) :=
  if isDirB fs p then .ok (fs, some p)
  else if pathExistsB fs p then .ok (fs, none)
  else
    match mkdirParents fs p with
    | .ok fs' => .ok (fs', some p)
    | .error e => .error e

/-- The kind of move decision taken for a file. -/
inductive MoveKind where
  | quarantine       -- EXIF failure, moved to `outliers/<name>`
  | quarantineSuffix -- duplicate content, moved to `outliers/<name>-<digest>`
  | place            -- no collision, moved to `datePath/<name>`
  | placeSuffix      -- name collision, moved to `datePath/<name>-<digest>`
deriving DecidableEq, Repr

/-- An observable event of the run. -/
inductive Event where
  | scan (d : FPath)                          -- a directory popped and listed
  | del (f : FPath)                           -- a zero-size file unlinked
  | move (src dest : FPath) (k : MoveKind)    -- a file renamed to `dest`
deriving DecidableEq, Repr

/-- A trace step: the filesystem immediately before the event, the event,
and the filesystem immediately after it. -/
structure TStep where
  pre : FS
  ev : Event
  post : FS
deriving DecidableEq, Repr

/-- The body of the per-file loop (`sortem.py` lines 84-118): delete
zero-size files; quarantine on EXIF failure; otherwise provision the date
directory and place, resolving a name collision via digests.  `outliers`
is `none` when `create_if_required` on the outliers store returned `None`;
using it then raises (modelled `RunErr.noneType`). -/
def processFile (ext : Externals) (target : FPath) (outliers : Option FPath)
    (fs : FS) (f : FPath) : Except RunErr (FS × TStep) :=
  match statNode fs f with
  | some (Node.file c) =>
    if c.length = 0 then
      -- empty file - remove
      match unlinkFS fs f with
      | .ok fs' => .ok (fs', ⟨fs, Event.del f, fs'⟩)
      | .error e => .error e
    else
      -- get datetime; if no EXIF data then move to outliers
      match ext.getDT c with
      | none =>
        match outliers with
        | none => .error .noneType
        | some outl =>
          match renameFS fs f (outl ++ [fname f]) with
          | .ok fs' =>
            .ok (fs', ⟨fs, Event.move f (outl ++ [fname f]) MoveKind.quarantine, fs'⟩)
          | .error e => .error e
      | some dt =>
        match createIfRequired fs (dateDirPath target dt) with
        | .error e => .error e
        | .ok (_, none) => .error .noneType
        | .ok (fs1, some dateDir) =>
          let tf := dateDir ++ [fname f]
          if pathExistsB fs1 tf then
            -- filenames match - check hashes
            match readBytes fs1 f, readBytes fs1 tf with
            | some cf, some ct =>
              if ext.digest cf = ext.digest ct then
                -- hashes match - put this into outliers with hash appended
                match outliers with
                | none => .error .noneType
                | some outl =>
                  let dest := outl ++ [fname f ++ "-" ++ ext.digest cf]
                  match renameFS fs1 f dest with
                  | .ok fs2 =>
                    .ok (fs2, ⟨fs1, Event.move f dest MoveKind.quarantineSuffix, fs2⟩)
                  | .error e => .error e
              else
                -- hashes don't match - move to destination with hash appended
                let dest := dateDir ++ [fname f ++ "-" ++ ext.digest cf]
                match renameFS fs1 f dest with
                | .ok fs2 =>
                  .ok (fs2, ⟨fs1, Event.move f dest MoveKind.placeSuffix, fs2⟩)
                | .error e => .error e
            | _, _ => .error .readErr
          else
            match renameFS fs1 f tf with
            | .ok fs2 => .ok (fs2, ⟨fs1, Event.move f tf MoveKind.place, fs2⟩)
            | .error e => .error e
  | _ => .error .statErr

/-- Process the files of one directory in order, accumulating trace
steps; the first uncaught error aborts the run. -/
def processFiles (ext : Externals) (target : FPath) (outliers : Option FPath) :
    FS → List FPath → Except RunErr (FS × List TStep)
  | fs, [] => .ok (fs, [])
  | fs, f :: rest =>
    match processFile ext target outliers fs f with
    | .error e => .error e
    | .ok (fs1, st) =>
      match processFiles ext target outliers fs1 rest with
      | .error e => .error e
      | .ok (fs2, tr) => .ok (fs2, st :: tr)

/-- The subdirectories appended to the pending list (`sortem.py` line 67):
every entry that resolves to a directory, symbolic links included. -/
def subdirsOf (fs : FS) (entries : List FPath) : List FPath :=
  entries.filter (fun x => isDirB fs x)

/-- The files selected for processing (`sortem.py` line 78): regular
files, excluding symbolic links. -/
def filesSel (fs : FS) (entries : List FPath) : List FPath :=
  entries.filter (fun x => isFileB fs x && !isSymlinkB fs x)

/-- The BFS work loop (`sortem.py` lines 64-118): pop the first pending
directory, append its subdirectories to the pending list, then process its
files.  `fuel` bounds the number of iterations; `none` means the fuel ran
out (the loop would still be running). -/
def runLoop (ext : Externals) (target : FPath) (outliers : Option FPath) :
    Nat → List FPath → FS → List TStep → Option (Except RunErr (FS × List TStep))
  | _, [], fs, tr => some (.ok (fs, tr))
  | 0, _ :: _, _, _ => none
  | Nat.succ fuel, d :: rest, fs, tr =>
    match iterdir fs d with
    | none => some (.error .iterdirErr)
    | some entries =>
      let dirs' := rest ++ subdirsOf fs entries
      match processFiles ext target outliers fs (filesSel fs entries) with
      | .error e => some (.error e)
      | .ok (fs', steps) =>
        runLoop ext target outliers fuel dirs' fs' (tr ++ ⟨fs, Event.scan d, fs⟩ :: steps)

/-- The whole run (`sortem.py` lines 53-118): provision the target root
and the outliers store, then walk the source tree.  A `None` target root
raises immediately at `target / 'outliers'`; a `None` outliers store is
kept and only raises when first used. -/
def runProg (ext : Externals) (startingDir targetDir : FPath) (fs0 : FS) (fuel : Nat) :
    Option (Except RunErr (FS × List TStep)) :=
  match createIfRequired fs0 targetDir with
  | .error e => some (.error e)
  | .ok (_, none) => some (.error .noneType)
  | .ok (fs1, some target) =>
    match createIfRequired fs1 (target ++ ["outliers"]) with
    | .error e => some (.error e)
    | .ok (fs2, outliers) =>
      runLoop ext target outliers fuel [startingDir] fs2 []

/-!
## The EXIF reader `get_datetime` (lines 18-34)

Modelled over an abstract record of the two EXIF fields consulted and an
abstract parse function standing for
`datetime.strptime(dt, '%Y:%m:%d %H:%M:%S')`.  `none` for the whole
record models a failure to open or read the image.
-/

/-- The two EXIF fields `get_datetime` consults, each possibly absent. -/
structure ExifData where
  dateTime : Option String          -- `Exif.Image.DateTime`
  dateTimeOriginal : Option String  -- `Exif.Photo.DateTimeOriginal`
deriving DecidableEq, Repr

/-- `get_datetime` (lines 18-34): the `try` block falls back to
`Exif.Photo.DateTimeOriginal` only when looking up `Exif.Image.DateTime`
raises (the field is absent); `strptime` runs on the chosen raw string
outside the `try`, so its failure propagates without any fallback.
`none` is any propagated exception (extraction failure). -/
def get_datetime (parse : String → Option DateT) (img : Option ExifData) :
    Option DateT :=
  match img with
  | none => none
  | some md =>
    match md.dateTime with
    | some s => parse s
    | none =>
      match md.dateTimeOriginal with
      | some s => parse s
      | none => none

/-- The spec's wording of the metadata contract: attempt the primary
field; if it is absent *or its value is unparsable*, attempt the
secondary field.  Stated for comparison with `get_datetime`. -/
def get_datetime_specWording (parse : String → Option DateT)
    (img : Option ExifData) : Option DateT :=
  match img with
  | none => none
  | some md =>
    match md.dateTime.bind parse with
    | some d => some d
    | none => md.dateTimeOriginal.bind parse

/-!
## Basic filesystem lemmas
-/

/-- Whether a node is a symbolic link. -/
def isLinkNode : Node → Bool
  | Node.symlink _ => true
  | _ => false

/-- A filesystem with no symbolic-link entries. -/
def NoSymlinksFS (fs : FS) : Prop := ∀ e ∈ fs, isLinkNode e.2 = false

/-- A filesystem whose entry paths are pairwise distinct. -/
def NodupKeysFS (fs : FS) : Prop := (fs.map Prod.fst).Nodup

instance (fs : FS) : Decidable (NoSymlinksFS fs) := by
  unfold NoSymlinksFS; infer_instance

instance (fs : FS) : Decidable (NodupKeysFS fs) := by
  unfold NodupKeysFS; infer_instance

theorem lookupFS_append (fs l : FS) (p : FPath) :
    lookupFS (fs ++ l) p = (lookupFS fs p).or (lookupFS l p) := by
  unfold lookupFS
  rw [List.find?_append]
  rcases h : List.find? (fun e => decide (e.1 = p)) fs with _ | e <;>
    simp [h, Option.or]

theorem lookupFS_append_of_some {fs : FS} {p : FPath} {n : Node} (l : FS)
    (h : lookupFS fs p = some n) : lookupFS (fs ++ l) p = some n := by
  rw [lookupFS_append, h]; rfl

theorem lookupFS_append_of_none {fs : FS} {p : FPath} (l : FS)
    (h : lookupFS fs p = none) : lookupFS (fs ++ l) p = lookupFS l p := by
  rw [lookupFS_append, h]; rcases lookupFS l p with _ | n <;> rfl

theorem lookupFS_cons (q : FPath) (m : Node) (fs : FS) (p : FPath) :
    lookupFS ((q, m) :: fs) p = if q = p then some m else lookupFS fs p := by
  unfold lookupFS
  by_cases hq : q = p <;> simp [List.find?_cons, hq]

theorem lookupFS_removeKey (fs : FS) (k p : FPath) :
    lookupFS (removeKey fs k) p = if p = k then none else lookupFS fs p := by
  induction fs with
  | nil => by_cases h : p = k <;> simp [removeKey, lookupFS, h]
  | cons e fs ih =>
    rcases e with ⟨q, m⟩
    unfold removeKey at ih ⊢
    rw [List.filter_cons]
    by_cases hqk : q = k
    · rw [if_neg (by simp [hqk])]
      by_cases hpk : p = k
      · rw [if_pos hpk]
        have h0 := ih
        rw [if_pos hpk] at h0
        exact h0
      · rw [if_neg hpk]
        have h0 := ih
        rw [if_neg hpk] at h0
        rw [h0, lookupFS_cons, if_neg (by rw [hqk]; exact fun h => hpk h.symm)]
    · rw [if_pos (by simp [hqk])]
      rw [lookupFS_cons, lookupFS_cons, ih]
      by_cases hqp : q = p
      · rw [if_pos hqp, if_pos hqp, if_neg (by rw [← hqp]; exact hqk)]
      · rw [if_neg hqp, if_neg hqp]

/-- `mkdirGo` only appends fresh directory entries at nonempty prefixes of
the remaining components, and afterwards every such prefix is a directory
entry. -/
theorem mkdirGo_spec {fs : FS} {acc : FPath} {rest : List String} {fs' : FS}
    (h : mkdirGo fs acc rest = .ok fs') :
    (∃ ds, fs' = fs ++ ds ∧
        ∀ e ∈ ds, (∃ r, r ≠ [] ∧ r <+: rest ∧ e.1 = acc ++ r) ∧ e.2 = Node.dir) ∧
    (∀ r, r ≠ [] → r <+: rest → lookupFS fs' (acc ++ r) = some Node.dir) := by
  induction rest generalizing fs acc with
  | nil =>
    simp only [mkdirGo] at h
    have hfs : fs' = fs := by cases h; rfl
    subst hfs
    refine ⟨⟨[], by simp, by simp⟩, ?_⟩
    intro r hr hpre
    exact absurd (List.prefix_nil.mp hpre) hr
  | cons c cs ih =>
    simp only [mkdirGo] at h
    rcases hl : lookupFS fs (acc ++ [c]) with _ | nd
    · -- entry missing: created, then recursion
      rw [hl] at h
      obtain ⟨⟨ds', hds', hall⟩, hmk⟩ := ih h
      have hq : lookupFS (fs ++ [(acc ++ [c], Node.dir)]) (acc ++ [c])
          = some Node.dir := by
        rw [lookupFS_append_of_none _ hl]
        simp [lookupFS, List.find?]
      constructor
      · refine ⟨(acc ++ [c], Node.dir) :: ds', by simpa [List.append_assoc] using hds', ?_⟩
        intro e he
        rcases List.mem_cons.mp he with he | he
        · subst he
          exact ⟨⟨[c], by simp, ⟨cs, rfl⟩, rfl⟩, rfl⟩
        · obtain ⟨⟨r, hr, hrp, hre⟩, hnd⟩ := hall e he
          refine ⟨⟨c :: r, by simp, List.cons_prefix_cons.mpr ⟨rfl, hrp⟩,
            by simpa [List.append_assoc] using hre⟩, hnd⟩
      · intro r hr hpre
        match r, hr with
        | r₀ :: r', _ =>
          obtain ⟨hc, hr'⟩ := List.cons_prefix_cons.mp hpre
          subst hc
          by_cases h0 : r' = []
          · subst h0
            rw [hds']
            exact lookupFS_append_of_some _ hq
          · have := hmk r' h0 hr'
            simpa [List.append_assoc] using this
    · rcases nd with content | _ | tgt
      · rw [hl] at h; exact absurd h (by simp)
      · -- existing directory: recursion
        rw [hl] at h
        obtain ⟨⟨ds', hds', hall⟩, hmk⟩ := ih h
        constructor
        · refine ⟨ds', hds', ?_⟩
          intro e he
          obtain ⟨⟨r, hr, hrp, hre⟩, hnd⟩ := hall e he
          exact ⟨⟨c :: r, by simp, List.cons_prefix_cons.mpr ⟨rfl, hrp⟩,
            by simpa [List.append_assoc] using hre⟩, hnd⟩
        · intro r hr hpre
          match r, hr with
          | r₀ :: r', _ =>
            obtain ⟨hc, hr'⟩ := List.cons_prefix_cons.mp hpre
            subst hc
            by_cases h0 : r' = []
            · subst h0
              rw [hds']
              exact lookupFS_append_of_some _ hl
            · have := hmk r' h0 hr'
              simpa [List.append_assoc] using this
      · rw [hl] at h; exact absurd h (by simp)

/-- Walking components that are all existing directory entries resolves
literally, with no symlink hop. -/
theorem walkStep_all_dirs {fs : FS} {acc : FPath} {rest : List String}
    (h : ∀ r, r ≠ [] → r <+: rest → lookupFS fs (acc ++ r) = some Node.dir) :
    walkStep fs acc rest = some (Sum.inl (acc ++ rest)) := by
  induction rest generalizing acc with
  | nil => simp [walkStep]
  | cons c cs ih =>
    have hc := h [c] (by simp) ⟨cs, rfl⟩
    have hrec := @ih (acc ++ [c]) (fun r hr hrp => by
      have := h (c :: r) (by simp) (List.cons_prefix_cons.mpr ⟨rfl, hrp⟩)
      simpa [List.append_assoc] using this)
    simp only [walkStep, hc]
    simpa [List.append_assoc] using hrec

/-- A path all of whose nonempty prefixes are directory entries resolves
to itself. -/
theorem resolveFrom_all_dirs {fs : FS} {acc : FPath} {rest : List String}
    (fuel : Nat)
    (h : ∀ r, r ≠ [] → r <+: rest → lookupFS fs (acc ++ r) = some Node.dir) :
    resolveFrom fs fuel acc rest = some (acc ++ rest) := by
  simp [resolveFrom, walkStep_all_dirs h]

/-- The root is always a directory. -/
theorem isDirB_nil (fs : FS) : isDirB fs [] = true := rfl

/-!
## Claim C4 - metadata extraction fallback logic

`get_datetime` (lines 18-34) falls back to `Exif.Photo.DateTimeOriginal`
only when the lookup of `Exif.Image.DateTime` raises, i.e. the field is
absent.  An unparsable primary value reaches `strptime` outside the `try`
block and fails the extraction without consulting the secondary field,
contradicting the claim's "absent or its value is unparsable".
-/

/-- A concrete stand-in for `strptime(·, '%Y:%m:%d %H:%M:%S')` accepting
a single well-formed timestamp, used for concrete inputs. -/
def parseDemo : String → Option DateT :=
  fun s => if s = "2022:01:01 00:00:00" then some ⟨2022, 1, 1⟩ else none

/-- EXIF data with an unparsable primary field and a parsable secondary
field: the claimed fallback would succeed, the code fails. -/
def exifDemo : Option ExifData :=
  some ⟨some "not-a-date", some "2022:01:01 00:00:00"⟩

/-- C4, counterexample: with the primary capture-time field present but
unparsable and the secondary field parsable, `get_datetime` does not
attempt the secondary field and fails, while the claimed behaviour
(`get_datetime_specWording`) would succeed. -/
theorem claim_C4_counterexample :
    parseDemo "not-a-date" = none ∧
    parseDemo "2022:01:01 00:00:00" = some ⟨2022, 1, 1⟩ ∧
    get_datetime parseDemo exifDemo = none ∧
    get_datetime_specWording parseDemo exifDemo = some ⟨2022, 1, 1⟩ :=
  ⟨rfl, rfl, rfl, rfl⟩

/-- C4, amended: extraction fails when the image cannot be opened; the
secondary original-capture field is attempted only when the primary field
is absent; the chosen raw value is parsed (as `YYYY:MM:DD HH:MM:SS`), and
absence of both fields, parse failure of the chosen value, or open
failure all surface as the same extraction failure (`none`).  The code
agrees with the spec's wording except when the primary field is present
but unparsable, in which case extraction fails regardless of the
secondary field. -/
theorem claim_C4 (parse : String → Option DateT) :
    get_datetime parse none = none ∧
    (∀ o₂, get_datetime parse (some ⟨none, o₂⟩) = o₂.bind parse) ∧
    (∀ s o₂, get_datetime parse (some ⟨some s, o₂⟩) = parse s) ∧
    (∀ img, get_datetime parse img = get_datetime_specWording parse img ∨
      (∃ md s, img = some md ∧ md.dateTime = some s ∧ parse s = none ∧
        get_datetime parse img = none)) := by
  refine ⟨rfl, fun o₂ => ?_, fun s o₂ => rfl, fun img => ?_⟩
  · cases o₂ <;> rfl
  · cases img with
    | none => exact Or.inl rfl
    | some md =>
      rcases md with ⟨d1, d2⟩
      cases d1 with
      | none =>
        left
        cases d2 with
        | none => rfl
        | some s => simp [get_datetime, get_datetime_specWording]
      | some s =>
        rcases hp : parse s with _ | d
        · right
          exact ⟨⟨some s, d2⟩, s, rfl, rfl, hp, by simp [get_datetime, hp]⟩
        · left
          simp [get_datetime, get_datetime_specWording, hp]

/-!
## Claim C6 - directory provisioning

`create_if_required` returns the path unchanged when it is a directory,
creates it with all missing ancestors otherwise, and returns Python
`None` (modelled `none`) when the path exists as a non-directory.  The
conflict is *not* always fatal for the run: a conflict on the outliers
store only raises at the first attempted quarantine, so a run that never
quarantines completes normally.
-/

/-- Extractor: the run completed and the given path exists in the final
filesystem. -/
def runPlacesOk (r : Option (Except RunErr (FS × List TStep))) (p : FPath) : Bool :=
  match r with
  | some (.ok (fs, _)) => pathExistsB fs p
  | _ => false

/-- Externals for concrete runs: every file carries the same capture
date, and the digest is the content length rendered as a string. -/
def extPlace : Externals := ⟨fun _ => some ⟨2022, 1, 1⟩, fun c => toString c.length⟩

/-- A target tree whose outliers store is occupied by a regular file,
plus a source tree with one placeable image. -/
def fsOutlConflict : FS :=
  [(["t"], Node.dir), (["t", "outliers"], Node.file [9]),
   (["s"], Node.dir), (["s", "img.jpg"], Node.file [5])]

/-- C6, counterexample: provisioning the outliers store hits a
non-directory conflict (returns `none`), yet the run is not aborted: it
completes and places the source image, because the `None` outliers path
is only used when a quarantine is attempted. -/
theorem claim_C6_counterexample :
    createIfRequired fsOutlConflict ["t", "outliers"] = .ok (fsOutlConflict, none) ∧
    runPlacesOk (runProg extPlace ["s"] ["t"] fsOutlConflict 10)
      ["t", "2022", "01", "01", "img.jpg"] = true :=
  ⟨rfl, rfl⟩

/-- C6, amended: `create_if_required` returns `p` unchanged when `p` is a
directory (and repeated calls are no-ops), creates `p` with all missing
ancestors otherwise, and signals the conflict by returning `None`
(modelled `none`, after logging) when `p` exists as a non-directory; a
conflict on the target root aborts the run immediately (the `None` is
used at once), while a conflict on the outliers store aborts only at the
first quarantine attempt. -/
theorem claim_C6 (fs fs' : FS) (p : FPath)
    (h1 : isDirB fs p = false) (h2 : pathExistsB fs p = false)
    (h3 : mkdirParents fs p = .ok fs') :
    createIfRequired fs p = .ok (fs', some p) ∧
    (∀ r, r ≠ [] → r <+: p → lookupFS fs' r = some Node.dir) ∧
    (isDirB fs' p = true ∧ createIfRequired fs' p = .ok (fs', some p)) ∧
    (∀ fsx px, isDirB fsx px = true → createIfRequired fsx px = .ok (fsx, some px)) ∧
    (∀ fsx px, isDirB fsx px = false → pathExistsB fsx px = true →
        createIfRequired fsx px = .ok (fsx, none)) ∧
    (∀ ext start fsx fuel, isDirB fsx p = false → pathExistsB fsx p = true →
        runProg ext start p fsx fuel = some (.error .noneType)) := by
  have hanc : ∀ r, r ≠ [] → r <+: p → lookupFS fs' r = some Node.dir := by
    intro r hr hrp
    have := (mkdirGo_spec h3).2 r hr hrp
    simpa using this
  have hp : p ≠ [] := by
    intro he
    rw [he, isDirB_nil] at h1
    exact Bool.noConfusion h1
  have hdir' : isDirB fs' p = true := by
    have hres : resolveFrom fs' maxHops [] p = some p := by
      have := @resolveFrom_all_dirs fs' [] p maxHops
        (fun r hr hrp => by simpa using hanc r hr hrp)
      simpa using this
    match p, hp with
    | c :: cs, _ =>
      simp only [isDirB, statNode, hres]
      rw [hanc (c :: cs) (by simp) (List.prefix_refl _)]
  refine ⟨?_, hanc, ⟨hdir', ?_⟩, ?_, ?_, ?_⟩
  · simp [createIfRequired, h1, h2, h3]
  · simp [createIfRequired, hdir']
  · intro fsx px hd
    simp [createIfRequired, hd]
  · intro fsx px hd he
    simp [createIfRequired, hd, he]
  · intro ext start fsx fuel hd he
    simp [runProg, createIfRequired, hd, he]

/-- C6, witness: instantiating the amended claim on the empty filesystem
and path `a/b`. -/
theorem claim_C6_witness :
    createIfRequired [] ["a", "b"]
      = .ok ([(["a"], Node.dir), (["a", "b"], Node.dir)], some ["a", "b"]) ∧
    (∀ r, r ≠ [] → r <+: ["a", "b"] →
      lookupFS [(["a"], Node.dir), (["a", "b"], Node.dir)] r = some Node.dir) ∧
    (isDirB [(["a"], Node.dir), (["a", "b"], Node.dir)] ["a", "b"] = true ∧
      createIfRequired [(["a"], Node.dir), (["a", "b"], Node.dir)] ["a", "b"]
        = .ok ([(["a"], Node.dir), (["a", "b"], Node.dir)], some ["a", "b"])) ∧
    (∀ fsx px, isDirB fsx px = true → createIfRequired fsx px = .ok (fsx, some px)) ∧
    (∀ fsx px, isDirB fsx px = false → pathExistsB fsx px = true →
        createIfRequired fsx px = .ok (fsx, none)) ∧
    (∀ ext start fsx fuel, isDirB fsx ["a", "b"] = false →
        pathExistsB fsx ["a", "b"] = true →
        runProg ext start ["a", "b"] fsx fuel = some (.error .noneType)) :=
  claim_C6 [] [(["a"], Node.dir), (["a", "b"], Node.dir)] ["a", "b"] rfl rfl rfl

/-!
## Per-file decision theorems (C9, C7, C3, C10)
-/

/-- `create_if_required` on an existing directory returns it unchanged. -/
theorem createIfRequired_of_isDir {fs : FS} {p : FPath} (h : isDirB fs p = true) :
    createIfRequired fs p = .ok (fs, some p) := by
  simp [createIfRequired, h]

/-- Reading a path that stats as a regular file yields its content. -/
theorem readBytes_of_stat {fs : FS} {p : FPath} {c : List Nat}
    (h : statNode fs p = some (Node.file c)) : readBytes fs p = some c := by
  simp [readBytes, h]

/-- A path with a successful `stat` exists. -/
theorem pathExistsB_of_stat {fs : FS} {p : FPath} {n : Node}
    (h : statNode fs p = some n) : pathExistsB fs p = true := by
  simp [pathExistsB, h]

/-- C9: a zero-size file is deleted - the decision is DELETE, realised by
`unlink`; no later classification step runs, the removed entry is gone,
and no entry is created anywhere (in particular not under the target tree
or the outliers store). -/
theorem claim_C9 (ext : Externals) (target : FPath) (outliers : Option FPath)
    (fs fs' : FS) (f : FPath)
    (hf : statNode fs f = some (Node.file []))
    (hu : unlinkFS fs f = .ok fs') :
    processFile ext target outliers fs f = .ok (fs', ⟨fs, Event.del f, fs'⟩) ∧
    (∃ k, k.getLast? = f.getLast? ∧ fs' = removeKey fs k ∧ lookupFS fs' k = none) ∧
    (∀ p n, lookupFS fs' p = some n → lookupFS fs p = some n) := by
  have hrem : ∃ k, k.getLast? = f.getLast? ∧ fs' = removeKey fs k := by
    unfold unlinkFS at hu
    rcases hl : f.getLast? with _ | last
    · simp [hl] at hu
    · simp only [hl] at hu
      rcases hr : resolveFrom fs maxHops [] f.dropLast with _ | rp
      · simp [hr] at hu
      · simp only [hr] at hu
        by_cases hs : (lookupFS fs (rp ++ [last])).isSome
        · rw [if_pos hs] at hu
          refine ⟨rp ++ [last], ?_, by cases hu; rfl⟩
          rw [List.getLast?_concat]
        · rw [if_neg hs] at hu; exact absurd hu (by simp)
  obtain ⟨k, hk, hfs'⟩ := hrem
  refine ⟨by simp [processFile, hf, hu], ⟨k, hk, hfs', ?_⟩, ?_⟩
  · rw [hfs', lookupFS_removeKey, if_pos rfl]
  · intro p n hp
    rw [hfs', lookupFS_removeKey] at hp
    by_cases hpk : p = k
    · rw [if_pos hpk] at hp; exact absurd hp (by simp)
    · rwa [if_neg hpk] at hp

/-- C9, witness. -/
theorem claim_C9_witness :
    processFile extPlace ["t"] (some ["t", "outliers"])
        [(["s"], Node.dir), (["s", "z.jpg"], Node.file [])] ["s", "z.jpg"]
      = .ok ([(["s"], Node.dir)],
          ⟨[(["s"], Node.dir), (["s", "z.jpg"], Node.file [])],
            Event.del ["s", "z.jpg"], [(["s"], Node.dir)]⟩) ∧
    (∃ k, k.getLast? = (["s", "z.jpg"] : FPath).getLast? ∧
      [(["s"], Node.dir)]
        = removeKey [(["s"], Node.dir), (["s", "z.jpg"], Node.file [])] k ∧
      lookupFS [(["s"], Node.dir)] k = none) ∧
    (∀ p n, lookupFS [(["s"], Node.dir)] p = some n →
      lookupFS [(["s"], Node.dir), (["s", "z.jpg"], Node.file [])] p = some n) :=
  claim_C9 extPlace ["t"] (some ["t", "outliers"]) _ _ ["s", "z.jpg"] rfl rfl

/-- C7: a non-zero-size file whose metadata extraction fails is
quarantined - the decision is QUARANTINE with destination
`outliers/<f.name>`, no further classification runs for it, and the run
continues with the next file. -/
theorem claim_C7 (ext : Externals) (target outl : FPath) (fs : FS) (f : FPath)
    (c : List Nat)
    (hf : statNode fs f = some (Node.file c)) (hc : c.length ≠ 0)
    (hdt : ext.getDT c = none) :
    processFile ext target (some outl) fs f =
      (renameFS fs f (outl ++ [fname f])).map
        (fun fs' =>
          (fs', ⟨fs, Event.move f (outl ++ [fname f]) MoveKind.quarantine, fs'⟩)) ∧
    (∀ rest fs', renameFS fs f (outl ++ [fname f]) = .ok fs' →
      processFiles ext target (some outl) fs (f :: rest) =
        (processFiles ext target (some outl) fs' rest).map
          (fun r => (r.1,
            (⟨fs, Event.move f (outl ++ [fname f]) MoveKind.quarantine, fs'⟩ : TStep)
              :: r.2))) := by
  have h1 : processFile ext target (some outl) fs f =
      (renameFS fs f (outl ++ [fname f])).map
        (fun fs' =>
          (fs', ⟨fs, Event.move f (outl ++ [fname f]) MoveKind.quarantine, fs'⟩)) := by
    rcases hr : renameFS fs f (outl ++ [fname f]) with e | fs' <;>
      simp [processFile, hf, hc, hdt, hr, Except.map]
  refine ⟨h1, fun rest fs' hr => ?_⟩
  rw [hr] at h1
  rcases hrest : processFiles ext target (some outl) fs' rest with e | r <;>
    simp [processFiles, h1, hrest, Except.map]

/-- C7, witness: a 1-byte file with unreadable metadata in a tree with a
provisioned outliers store. -/
theorem claim_C7_witness :
    processFile ⟨fun _ => none, fun c => toString c.length⟩ ["t"] (some ["t", "outliers"])
        [(["s"], Node.dir), (["s", "x.jpg"], Node.file [1]),
         (["t"], Node.dir), (["t", "outliers"], Node.dir)] ["s", "x.jpg"] =
      (renameFS [(["s"], Node.dir), (["s", "x.jpg"], Node.file [1]),
         (["t"], Node.dir), (["t", "outliers"], Node.dir)] ["s", "x.jpg"]
          (["t", "outliers"] ++ [fname ["s", "x.jpg"]])).map
        (fun fs' =>
          (fs', ⟨[(["s"], Node.dir), (["s", "x.jpg"], Node.file [1]),
             (["t"], Node.dir), (["t", "outliers"], Node.dir)],
            Event.move ["s", "x.jpg"]
              (["t", "outliers"] ++ [fname ["s", "x.jpg"]]) MoveKind.quarantine, fs'⟩)) ∧
    (∀ rest fs', renameFS [(["s"], Node.dir), (["s", "x.jpg"], Node.file [1]),
         (["t"], Node.dir), (["t", "outliers"], Node.dir)] ["s", "x.jpg"]
          (["t", "outliers"] ++ [fname ["s", "x.jpg"]]) = .ok fs' →
      processFiles ⟨fun _ => none, fun c => toString c.length⟩ ["t"] (some ["t", "outliers"])
          [(["s"], Node.dir), (["s", "x.jpg"], Node.file [1]),
           (["t"], Node.dir), (["t", "outliers"], Node.dir)] (["s", "x.jpg"] :: rest) =
        (processFiles ⟨fun _ => none, fun c => toString c.length⟩ ["t"]
            (some ["t", "outliers"]) fs' rest).map
          (fun r => (r.1,
            (⟨[(["s"], Node.dir), (["s", "x.jpg"], Node.file [1]),
               (["t"], Node.dir), (["t", "outliers"], Node.dir)],
              Event.move ["s", "x.jpg"]
                (["t", "outliers"] ++ [fname ["s", "x.jpg"]]) MoveKind.quarantine,
              fs'⟩ : TStep) :: r.2))) :=
  claim_C7 ⟨fun _ => none, fun c => toString c.length⟩ ["t"] ["t", "outliers"] _
    ["s", "x.jpg"] [1] rfl (by decide) rfl

/-- C3: when the candidate destination `datePath/<f.name>` already
exists, the digests of the file and of the existing candidate are
computed; equal digests give decision QUARANTINE-WITH-SUFFIX with
destination `outliers/<f.name>-<digest>`, differing digests give decision
PLACE-WITH-SUFFIX with destination `datePath/<f.name>-<digest>` (the
digest appended is that of the processed file). -/
theorem claim_C3 (ext : Externals) (target outl : FPath) (fs : FS) (f : FPath)
    (c ct : List Nat) (dt : DateT)
    (hf : statNode fs f = some (Node.file c)) (hc : c.length ≠ 0)
    (hdt : ext.getDT c = some dt)
    (hdir : isDirB fs (dateDirPath target dt) = true)
    (hcand : statNode fs (dateDirPath target dt ++ [fname f]) = some (Node.file ct)) :
    (ext.digest c = ext.digest ct →
      processFile ext target (some outl) fs f =
        (renameFS fs f (outl ++ [fname f ++ "-" ++ ext.digest c])).map
          (fun fs2 => (fs2,
            ⟨fs, Event.move f (outl ++ [fname f ++ "-" ++ ext.digest c])
              MoveKind.quarantineSuffix, fs2⟩))) ∧
    (ext.digest c ≠ ext.digest ct →
      processFile ext target (some outl) fs f =
        (renameFS fs f (dateDirPath target dt ++ [fname f ++ "-" ++ ext.digest c])).map
          (fun fs2 => (fs2,
            ⟨fs, Event.move f (dateDirPath target dt ++ [fname f ++ "-" ++ ext.digest c])
              MoveKind.placeSuffix, fs2⟩))) := by
  have hex : pathExistsB fs (dateDirPath target dt ++ [fname f]) = true :=
    pathExistsB_of_stat hcand
  constructor
  · intro hdig
    simp only [processFile, hf, hdt, createIfRequired_of_isDir hdir, hex,
      readBytes_of_stat hf, readBytes_of_stat hcand]
    rw [if_neg hc, if_pos hdig]
    rcases hr : renameFS fs f (outl ++ [fname f ++ "-" ++ ext.digest c]) with e | fs2 <;>
      simp [hr, Except.map]
  · intro hdig
    simp only [processFile, hf, hdt, createIfRequired_of_isDir hdir, hex,
      readBytes_of_stat hf, readBytes_of_stat hcand]
    rw [if_neg hc, if_neg hdig]
    rcases hr : renameFS fs f (dateDirPath target dt ++ [fname f ++ "-" ++ ext.digest c])
        with e | fs2 <;>
      simp [hr, Except.map]

/-- Externals for the C3 witness: digest is the rendered content. -/
def extDigest : Externals :=
  ⟨fun _ => some ⟨2022, 1, 1⟩, fun c => String.intercalate "." (c.map toString)⟩

/-- Filesystem for the C3 witness: `photo.jpg` in the source, an
identical `photo.jpg` already placed at the date path, plus the target
layout. -/
def fsDup : FS :=
  [(["s"], Node.dir), (["s", "photo.jpg"], Node.file [7]),
   (["t"], Node.dir), (["t", "outliers"], Node.dir),
   (["t", "2022"], Node.dir), (["t", "2022", "01"], Node.dir),
   (["t", "2022", "01", "01"], Node.dir),
   (["t", "2022", "01", "01", "photo.jpg"], Node.file [7])]

/-- C3, witness: duplicate content at the candidate destination. -/
theorem claim_C3_witness :
    (extDigest.digest [7] = extDigest.digest [7] →
      processFile extDigest ["t"] (some ["t", "outliers"]) fsDup ["s", "photo.jpg"] =
        (renameFS fsDup ["s", "photo.jpg"]
            (["t", "outliers"] ++ [fname ["s", "photo.jpg"] ++ "-" ++ extDigest.digest [7]])).map
          (fun fs2 => (fs2,
            ⟨fsDup, Event.move ["s", "photo.jpg"]
              (["t", "outliers"] ++ [fname ["s", "photo.jpg"] ++ "-" ++ extDigest.digest [7]])
              MoveKind.quarantineSuffix, fs2⟩))) ∧
    (extDigest.digest [7] ≠ extDigest.digest [7] →
      processFile extDigest ["t"] (some ["t", "outliers"]) fsDup ["s", "photo.jpg"] =
        (renameFS fsDup ["s", "photo.jpg"]
            (dateDirPath ["t"] ⟨2022, 1, 1⟩ ++
              [fname ["s", "photo.jpg"] ++ "-" ++ extDigest.digest [7]])).map
          (fun fs2 => (fs2,
            ⟨fsDup, Event.move ["s", "photo.jpg"]
              (dateDirPath ["t"] ⟨2022, 1, 1⟩ ++
                [fname ["s", "photo.jpg"] ++ "-" ++ extDigest.digest [7]])
              MoveKind.placeSuffix, fs2⟩))) :=
  claim_C3 extDigest ["t"] ["t", "outliers"] fsDup ["s", "photo.jpg"] [7] [7]
    ⟨2022, 1, 1⟩ rfl (by decide) rfl rfl rfl

/-- C10: a directory entry that is a symbolic link resolving to a
directory is selected for the pending work list (`subdirsOf`, line 67 has
no symlink exclusion), is excluded from the file listing (`filesSel`,
line 78 excludes symlinks), and can itself be listed (`iterdir`
succeeds), so it is traversed like an ordinary subdirectory. -/
theorem claim_C10 (fs : FS) (d x tgt : FPath) (entries : List FPath)
    (hit : iterdir fs d = some entries) (hx : x ∈ entries)
    (hlink : lstatNode fs x = some (Node.symlink tgt))
    (hdir : isDirB fs x = true) :
    x ∈ subdirsOf fs entries ∧ x ∉ filesSel fs entries ∧ (iterdir fs x).isSome := by
  refine ⟨List.mem_filter.mpr ⟨hx, by simp [hdir]⟩, ?_, ?_⟩
  · intro hmem
    have hcond := (List.mem_filter.mp hmem).2
    simp [isSymlinkB, hlink] at hcond
  · have hsn : statNode fs x = some Node.dir := by
      unfold isDirB at hdir
      rcases hs : statNode fs x with _ | n
      · rw [hs] at hdir; exact absurd hdir (by simp)
      · rw [hs] at hdir
        cases n with
        | dir => rfl
        | file c => exact absurd hdir (by simp)
        | symlink t => exact absurd hdir (by simp)
    unfold statNode at hsn
    rcases hres : resolveFrom fs maxHops [] x with _ | r
    · rw [hres] at hsn; exact absurd hsn (by simp)
    · simp only [hres] at hsn
      cases r with
      | nil => simp [iterdir, hres]
      | cons a as =>
        simp only [] at hsn
        simp [iterdir, hres, hsn]

/-- Filesystem for the C10 witness: `s/link` is a symbolic link to the
directory `q`, which contains a file. -/
def fsLink : FS :=
  [(["s"], Node.dir), (["s", "link"], Node.symlink ["q"]),
   (["q"], Node.dir), (["q", "img.jpg"], Node.file [7])]

/-- C10, witness: the symlinked directory is enqueued, not treated as a
file, and listable. -/
theorem claim_C10_witness :
    ["s", "link"] ∈ subdirsOf fsLink [["s", "link"]] ∧
    ["s", "link"] ∉ filesSel fsLink [["s", "link"]] ∧
    (iterdir fsLink ["s", "link"]).isSome :=
  claim_C10 fsLink ["s"] ["s", "link"] ["q"] [["s", "link"]]
    rfl (by decide) rfl rfl

/-!
## Symlink-free resolution and monotonicity lemmas

These support the trace-soundness development: on a filesystem without
symbolic links resolution is literal, and successful resolutions are
stable under adding fresh entries.
-/

/-- A looked-up node of a symlink-free filesystem is not a symlink. -/
theorem noSym_lookup {fs : FS} (hns : NoSymlinksFS fs) {p : FPath} {n : Node}
    (h : lookupFS fs p = some n) : isLinkNode n = false := by
  unfold lookupFS at h
  rcases hf : fs.find? (fun e => e.1 = p) with _ | e
  · rw [hf] at h; exact absurd h (by simp)
  · rw [hf] at h
    have hmem := List.mem_of_find?_eq_some hf
    have := hns e hmem
    cases h
    exact this

/-- Appending only directory entries preserves symlink-freedom. -/
theorem noSym_append {fs ds : FS} (hns : NoSymlinksFS fs)
    (hds : ∀ e ∈ ds, e.2 = Node.dir) : NoSymlinksFS (fs ++ ds) := by
  intro e he
  rcases List.mem_append.mp he with h | h
  · exact hns e h
  · rw [hds e h]; rfl

/-- Removing an entry preserves symlink-freedom. -/
theorem noSym_removeKey {fs : FS} (hns : NoSymlinksFS fs) (k : FPath) :
    NoSymlinksFS (removeKey fs k) := by
  intro e he
  exact hns e (List.mem_of_mem_filter he)

/-- On a symlink-free filesystem a successful walk never pauses at a
symlink, and it resolves to the literal path. -/
theorem walkStep_noSym {fs : FS} (hns : NoSymlinksFS fs) :
    ∀ {acc : FPath} {rest : List String} {res},
      walkStep fs acc rest = some res → res = Sum.inl (acc ++ rest) := by
  intro acc rest
  induction rest generalizing acc with
  | nil => intro res h; simpa [walkStep] using h.symm
  | cons c cs ih =>
    intro res h
    unfold walkStep at h
    rcases hl : lookupFS fs (acc ++ [c]) with _ | nd
    · rw [hl] at h; exact absurd h (by simp)
    · rw [hl] at h
      have hnl := noSym_lookup hns hl
      cases nd with
      | file content =>
        have := ih h
        simpa [List.append_assoc] using this
      | dir =>
        have := ih h
        simpa [List.append_assoc] using this
      | symlink t => exact absurd hnl (by simp [isLinkNode])

/-- On a symlink-free filesystem a successful resolution is literal. -/
theorem resolveFrom_noSym {fs : FS} (hns : NoSymlinksFS fs) {fuel : Nat}
    {acc : FPath} {rest : List String} {r : FPath}
    (h : resolveFrom fs fuel acc rest = some r) : r = acc ++ rest := by
  unfold resolveFrom at h
  rcases hw : walkStep fs acc rest with _ | res
  · rw [hw] at h; exact absurd h (by simp)
  · rw [hw] at h
    have := walkStep_noSym hns hw
    subst this
    cases h
    rfl

/-- A successful walk on a symlink-free filesystem survives adding fresh
entries (lookups that succeeded still return the same node). -/
theorem walkStep_mono {fs fs' : FS} (hns : NoSymlinksFS fs)
    (hmono : ∀ p n, lookupFS fs p = some n → lookupFS fs' p = some n) :
    ∀ {acc : FPath} {rest : List String} {r},
      walkStep fs acc rest = some (Sum.inl r) → walkStep fs' acc rest = some (Sum.inl r) := by
  intro acc rest
  induction rest generalizing acc with
  | nil => intro r h; simpa [walkStep] using h
  | cons c cs ih =>
    intro r h
    unfold walkStep at h ⊢
    rcases hl : lookupFS fs (acc ++ [c]) with _ | nd
    · rw [hl] at h; exact absurd h (by simp)
    · rw [hl] at h
      have hnl := noSym_lookup hns hl
      rw [hmono _ _ hl]
      cases nd with
      | file content => exact ih h
      | dir => exact ih h
      | symlink t => exact absurd hnl (by simp [isLinkNode])

/-- A successful `stat` on a symlink-free filesystem survives adding
fresh entries. -/
theorem statNode_mono {fs fs' : FS} (hns : NoSymlinksFS fs)
    (hmono : ∀ p n, lookupFS fs p = some n → lookupFS fs' p = some n)
    {p : FPath} {n : Node} (h : statNode fs p = some n) : statNode fs' p = some n := by
  unfold statNode at h ⊢
  rcases hr : resolveFrom fs maxHops [] p with _ | r
  · rw [hr] at h; exact absurd h (by simp)
  · rw [hr] at h
    have hlit : p = r := by simpa using (resolveFrom_noSym hns hr).symm
    subst hlit
    have hw : walkStep fs [] p = some (Sum.inl p) := by
      unfold resolveFrom at hr
      rcases hw0 : walkStep fs [] p with _ | res
      · rw [hw0] at hr; exact absurd hr (by simp)
      · have hres := walkStep_noSym hns hw0
        subst hres
        simpa using hw0
    have hw' := walkStep_mono hns hmono hw
    have hr' : resolveFrom fs' maxHops [] p = some p := by
      unfold resolveFrom; rw [hw']
    rw [hr']
    cases p with
    | nil => exact h
    | cons a as => exact hmono _ _ h

/-- On a symlink-free filesystem, a non-root path that stats to a node
has that node as its literal entry. -/
theorem statNode_noSym_lookup {fs : FS} (hns : NoSymlinksFS fs)
    {p : FPath} {n : Node} (h : statNode fs p = some n) :
    (p = [] ∧ n = Node.dir) ∨ lookupFS fs p = some n := by
  unfold statNode at h
  rcases hr : resolveFrom fs maxHops [] p with _ | r
  · rw [hr] at h; exact absurd h (by simp)
  · rw [hr] at h
    have hlit : p = r := by simpa using (resolveFrom_noSym hns hr).symm
    subst hlit
    cases p with
    | nil =>
      left
      have h2 : some Node.dir = some n := h
      cases h2
      exact ⟨rfl, rfl⟩
    | cons a as => right; exact h

/-!
## Trace soundness
-/

/-- A successful unlink removes one entry. -/
theorem unlinkFS_shape {fs fs' : FS} {p : FPath} (h : unlinkFS fs p = .ok fs') :
    ∃ k, fs' = removeKey fs k := by
  unfold unlinkFS at h
  rcases hl : p.getLast? with _ | last
  · rw [hl] at h; exact absurd h (by simp)
  · simp only [hl] at h
    rcases hr : resolveFrom fs maxHops [] p.dropLast with _ | rp
    · rw [hr] at h; exact absurd h (by simp)
    · simp only [hr] at h
      by_cases hs : (lookupFS fs (rp ++ [last])).isSome
      · rw [if_pos hs] at h
        exact ⟨rp ++ [last], by cases h; rfl⟩
      · rw [if_neg hs] at h; exact absurd h (by simp)

/-- Symlink-freedom restricts along a left append. -/
theorem noSym_of_append_left {fs ds : FS} (h : NoSymlinksFS (fs ++ ds)) :
    NoSymlinksFS fs :=
  fun e he => h e (List.mem_append.mpr (Or.inl he))

/-- On a symlink-free filesystem a successful rename moves the literal
source entry onto the literal destination path. -/
theorem renameFS_noSym {fs fs' : FS} {src dest : FPath} (hns : NoSymlinksFS fs)
    (h : renameFS fs src dest = .ok fs') :
    ∃ node, lookupFS fs src = some node ∧
      fs' = (dest, node) :: removeKey (removeKey fs src) dest ∧
      lookupFS fs dest ≠ some Node.dir := by
  unfold renameFS at h
  rcases hls : src.getLast? with _ | ls
  · rw [hls] at h; exact absurd h (by simp)
  · simp only [hls] at h
    rcases hld : dest.getLast? with _ | ld
    · rw [hld] at h; exact absurd h (by simp)
    · simp only [hld] at h
      rcases hrs : resolveFrom fs maxHops [] src.dropLast with _ | rs
      · rw [hrs] at h; exact absurd h (by simp)
      · simp only [hrs] at h
        rcases hrd : resolveFrom fs maxHops [] dest.dropLast with _ | rd
        · rw [hrd] at h; exact absurd h (by simp)
        · simp only [hrd] at h
          have hrs' : rs = src.dropLast := by
            simpa using resolveFrom_noSym hns hrs
          have hrd' : rd = dest.dropLast := by
            simpa using resolveFrom_noSym hns hrd
          subst hrs'
          subst hrd'
          have hsrc : src.dropLast ++ [ls] = src := List.dropLast_append_getLast? ls hls
          have hdst : dest.dropLast ++ [ld] = dest := List.dropLast_append_getLast? ld hld
          rw [hsrc, hdst] at h
          rcases hlk : lookupFS fs src with _ | node
          · rw [hlk] at h; exact absurd h (by simp)
          · simp only [hlk] at h
            by_cases hcond :
                (decide (dest.dropLast = []) ||
                  (lookupFS fs dest.dropLast == some Node.dir)) = true
            · rw [if_pos hcond] at h
              rcases hlt : lookupFS fs dest with _ | nd
              · simp only [hlt] at h
                exact ⟨node, rfl, by cases h; rfl, by simp⟩
              · simp only [hlt] at h
                cases nd with
                | dir => exact absurd h (by simp)
                | file content => exact ⟨node, rfl, by cases h; rfl, by simp⟩
                | symlink t => exact ⟨node, rfl, by cases h; rfl, by simp⟩
            · rw [if_neg hcond] at h; exact absurd h (by simp)

/-- A successful rename preserves symlink-freedom. -/
theorem renameFS_preserves_noSym {fs fs' : FS} {src dest : FPath}
    (hns : NoSymlinksFS fs) (h : renameFS fs src dest = .ok fs') :
    NoSymlinksFS fs' := by
  obtain ⟨node, hlk, hfs', _⟩ := renameFS_noSym hns h
  subst hfs'
  intro e he
  rcases List.mem_cons.mp he with he | he
  · subst he
    exact noSym_lookup hns hlk
  · exact hns e (List.mem_of_mem_filter (List.mem_of_mem_filter he))

/-- `create_if_required` returns either `None` or the requested path, and
only appends fresh directory entries. -/
theorem createIfRequired_cases {fs fs1 : FS} {p : FPath} {o : Option FPath}
    (h : createIfRequired fs p = .ok (fs1, o)) :
    (o = none ∧ fs1 = fs ∨ o = some p) ∧
    ∃ ds, fs1 = fs ++ ds ∧ (∀ e ∈ ds, e.2 = Node.dir) ∧ (∀ e ∈ ds, e.1 <+: p) := by
  unfold createIfRequired at h
  by_cases h1 : isDirB fs p = true
  · rw [if_pos h1] at h
    cases h
    exact ⟨Or.inr rfl, [], by simp, by simp, by simp⟩
  · rw [if_neg h1] at h
    by_cases h2 : pathExistsB fs p = true
    · rw [if_pos h2] at h
      cases h
      exact ⟨Or.inl ⟨rfl, rfl⟩, [], by simp, by simp, by simp⟩
    · rw [if_neg h2] at h
      rcases hm : mkdirParents fs p with e | fs2
      · rw [hm] at h; exact absurd h (by simp)
      · rw [hm] at h
        cases h
        obtain ⟨⟨ds, hds, hall⟩, _⟩ := mkdirGo_spec hm
        refine ⟨Or.inr rfl, ds, hds, fun e he => (hall e he).2, fun e he => ?_⟩
        obtain ⟨⟨r, _, hrp, hre⟩, _⟩ := hall e he
        rw [hre]
        simpa using hrp

/-- What each recorded run event guarantees: scans do not change the
filesystem; deletes hit zero-size files via `unlink`; moves are renames
into the target tree whose PLACE destinations were checked fresh, whose
QUARANTINE destinations lie in the outliers store, and which (on a
symlink-free filesystem) relocate the non-empty content of the source
file to the destination entry. -/
def StepOk (target : FPath) (st : TStep) : Prop :=
  match st.ev with
  | Event.scan _ => st.post = st.pre
  | Event.del f =>
      statNode st.pre f = some (Node.file []) ∧ unlinkFS st.pre f = .ok st.post
  | Event.move src dest k =>
      target <+: dest ∧
      renameFS st.pre src dest = .ok st.post ∧
      (k = MoveKind.place → pathExistsB st.pre dest = false) ∧
      ((k = MoveKind.quarantine ∨ k = MoveKind.quarantineSuffix) →
        (target ++ ["outliers"]) <+: dest) ∧
      (NoSymlinksFS st.pre →
        ∃ c, statNode st.pre src = some (Node.file c) ∧ c ≠ [] ∧
          lookupFS st.post dest = some (Node.file c))

/-- The target root is a prefix of every quarantine destination. -/
theorem target_prefix_outl (target : FPath) (x : String) :
    target <+: (target ++ ["outliers"]) ++ [x] := by
  rw [List.append_assoc]
  exact List.prefix_append _ _

/-- The target root is a prefix of every date-path destination. -/
theorem target_prefix_date (target : FPath) (dt : DateT) (x : String) :
    target <+: dateDirPath target dt ++ [x] := by
  unfold dateDirPath
  rw [List.append_assoc]
  exact List.prefix_append _ _

/-- Soundness of one file-processing step: the recorded trace step is
`StepOk`, its `post` field is the resulting filesystem, its `pre` field
is the input filesystem plus freshly created directories, and
symlink-freedom is preserved. -/
theorem processFile_stepOk {ext : Externals} {target : FPath}
    {outliers : Option FPath} {fs fs' : FS} {f : FPath} {st : TStep}
    (houtl : outliers = none ∨ outliers = some (target ++ ["outliers"]))
    (h : processFile ext target outliers fs f = .ok (fs', st)) :
    StepOk target st ∧ st.post = fs' ∧
    (∃ ds, st.pre = fs ++ ds ∧ ∀ e ∈ ds, e.2 = Node.dir) ∧
    (NoSymlinksFS fs → NoSymlinksFS fs') := by
  unfold processFile at h
  rcases hstat : statNode fs f with _ | nd
  · rw [hstat] at h; exact absurd h (by simp)
  · simp only [hstat] at h
    cases nd with
    | dir => exact absurd h (by simp)
    | symlink t => exact absurd h (by simp)
    | file c =>
      simp only [] at h
      by_cases hz : c.length = 0
      · -- DELETE branch
        rw [if_pos hz] at h
        rcases hu : unlinkFS fs f with e | fs1
        · rw [hu] at h; exact absurd h (by simp)
        · simp only [hu] at h
          cases h
          have hc0 : c = [] := List.length_eq_zero.mp hz
          subst hc0
          refine ⟨?_, rfl, ⟨[], by simp, by simp⟩, ?_⟩
          · simp only [StepOk]
            exact ⟨hstat, hu⟩
          · intro hns
            obtain ⟨k, hk⟩ := unlinkFS_shape hu
            rw [hk]
            exact noSym_removeKey hns k
      · rw [if_neg hz] at h
        have hcne : c ≠ [] := fun hc0 => hz (by rw [hc0]; rfl)
        rcases hdt : ext.getDT c with _ | dt
        · -- QUARANTINE branch
          simp only [hdt] at h
          rcases houtl with ho | ho
          · subst ho; exact absurd h (by simp)
          · subst ho
            rcases hr : renameFS fs f ((target ++ ["outliers"]) ++ [fname f])
                with e | fs1
            · simp only [hr] at h; exact absurd h (by simp)
            · simp only [hr] at h
              cases h
              refine ⟨?_, rfl, ⟨[], by simp, by simp⟩,
                fun hns => renameFS_preserves_noSym hns hr⟩
              simp only [StepOk]
              refine ⟨target_prefix_outl target _, hr, ?_, ?_, ?_⟩
              · intro hk; cases hk
              · intro _; exact List.prefix_append _ _
              intro hns
              refine ⟨c, hstat, hcne, ?_⟩
              obtain ⟨node, hlk, hfs1, _⟩ := renameFS_noSym hns hr
              rcases statNode_noSym_lookup hns hstat with ⟨_, hnd⟩ | hlk2
              · exact absurd hnd (by simp)
              · rw [hlk2] at hlk
                cases hlk
                rw [hfs1, lookupFS_cons, if_pos rfl]
        · -- date-placement branches
          simp only [hdt] at h
          rcases hcr : createIfRequired fs (dateDirPath target dt) with e | pr
          · rw [hcr] at h; exact absurd h (by simp)
          · rcases pr with ⟨fs1, o⟩
            rcases o with _ | dateDir
            · simp only [hcr] at h; exact absurd h (by simp)
            · simp only [hcr] at h
              obtain ⟨hor, ds, hds, hdsall, hdspre⟩ := createIfRequired_cases hcr
              rcases hor with ⟨hnone, _⟩ | hsome
              · exact absurd hnone (by simp)
              · have hdd : dateDir = dateDirPath target dt := Option.some.inj hsome
                subst hdd
                have hmono : ∀ p n, lookupFS fs p = some n → lookupFS fs1 p = some n := by
                  intro p n hpn
                  rw [hds]
                  exact lookupFS_append_of_some _ hpn
                have hnoSym1 : NoSymlinksFS fs1 → NoSymlinksFS fs := fun hns1 => by
                  rw [hds] at hns1
                  exact noSym_of_append_left hns1
                have hnoSym1' : NoSymlinksFS fs → NoSymlinksFS fs1 := fun hns => by
                  rw [hds]
                  exact noSym_append hns hdsall
                have hcontent : ∀ {fs2 : FS} {dest : FPath},
                    NoSymlinksFS fs1 →
                    readBytes fs1 f = some c →
                    renameFS fs1 f dest = .ok fs2 →
                    ∃ c0, statNode fs1 f = some (Node.file c0) ∧ c0 ≠ [] ∧
                      lookupFS fs2 dest = some (Node.file c0) := by
                  intro fs2 dest hns1 _ hr
                  have hst1 : statNode fs1 f = some (Node.file c) :=
                    statNode_mono (hnoSym1 hns1) hmono hstat
                  refine ⟨c, hst1, hcne, ?_⟩
                  obtain ⟨node, hlk, hfs2, _⟩ := renameFS_noSym hns1 hr
                  rcases statNode_noSym_lookup hns1 hst1 with ⟨_, hnd⟩ | hlk2
                  · exact absurd hnd (by simp)
                  · rw [hlk2] at hlk
                    cases hlk
                    rw [hfs2, lookupFS_cons, if_pos rfl]
                by_cases hex : pathExistsB fs1 (dateDirPath target dt ++ [fname f]) = true
                · rw [if_pos hex] at h
                  rcases hrb : readBytes fs1 f with _ | cf
                  · simp only [hrb] at h; exact absurd h (by simp)
                  · rcases hrb2 : readBytes fs1 (dateDirPath target dt ++ [fname f])
                        with _ | ct
                    · simp only [hrb, hrb2] at h; exact absurd h (by simp)
                    · simp only [hrb, hrb2] at h
                      have hrbc : ∀ hns1 : NoSymlinksFS fs1,
                          readBytes fs1 f = some c := fun hns1 =>
                        readBytes_of_stat (statNode_mono (hnoSym1 hns1) hmono hstat)
                      by_cases hd : ext.digest cf = ext.digest ct
                      · -- QUARANTINE-WITH-SUFFIX
                        rw [if_pos hd] at h
                        rcases houtl with ho | ho
                        · subst ho; exact absurd h (by simp)
                        · subst ho
                          rcases hr : renameFS fs1 f
                              ((target ++ ["outliers"]) ++ [fname f ++ "-" ++ ext.digest cf])
                              with e | fs2
                          · simp only [hr] at h; exact absurd h (by simp)
                          · simp only [hr] at h
                            cases h
                            refine ⟨?_, rfl, ⟨ds, hds, hdsall⟩,
                              fun hns => renameFS_preserves_noSym (hnoSym1' hns) hr⟩
                            simp only [StepOk]
                            refine ⟨target_prefix_outl target _, hr, ?_, ?_, ?_⟩
                            · intro hk; cases hk
                            · intro _; exact List.prefix_append _ _
                            intro hns1
                            exact hcontent hns1 (hrbc hns1) hr
                      · -- PLACE-WITH-SUFFIX
                        rw [if_neg hd] at h
                        rcases hr : renameFS fs1 f
                            (dateDirPath target dt ++ [fname f ++ "-" ++ ext.digest cf])
                            with e | fs2
                        · simp only [hr] at h; exact absurd h (by simp)
                        · simp only [hr] at h
                          cases h
                          refine ⟨?_, rfl, ⟨ds, hds, hdsall⟩,
                            fun hns => renameFS_preserves_noSym (hnoSym1' hns) hr⟩
                          simp only [StepOk]
                          refine ⟨target_prefix_date target dt _, hr, ?_, ?_, ?_⟩
                          · intro hk; cases hk
                          · intro hk; rcases hk with hk | hk <;> cases hk
                          intro hns1
                          exact hcontent hns1 (hrbc hns1) hr
                · -- PLACE
                  rw [if_neg hex] at h
                  rcases hr : renameFS fs1 f (dateDirPath target dt ++ [fname f])
                      with e | fs2
                  · simp only [hr] at h; exact absurd h (by simp)
                  · simp only [hr] at h
                    cases h
                    refine ⟨?_, rfl, ⟨ds, hds, hdsall⟩,
                      fun hns => renameFS_preserves_noSym (hnoSym1' hns) hr⟩
                    have hexf : pathExistsB fs1 (dateDirPath target dt ++ [fname f]) = false := by
                      cases hB : pathExistsB fs1 (dateDirPath target dt ++ [fname f])
                      · rfl
                      · exact absurd hB hex
                    simp only [StepOk]
                    refine ⟨target_prefix_date target dt _, hr, ?_, ?_, ?_⟩
                    · intro _; exact hexf
                    · intro hk; rcases hk with hk | hk <;> cases hk
                    intro hns1
                    exact hcontent hns1
                      (readBytes_of_stat (statNode_mono (hnoSym1 hns1) hmono hstat)) hr

/-- Soundness of processing one directory's file list. -/
theorem processFiles_stepsOk {ext : Externals} {target : FPath}
    {outliers : Option FPath}
    (houtl : outliers = none ∨ outliers = some (target ++ ["outliers"])) :
    ∀ {files : List FPath} {fs fs2 : FS} {steps : List TStep},
      processFiles ext target outliers fs files = .ok (fs2, steps) →
      (∀ st ∈ steps, StepOk target st) ∧
      (NoSymlinksFS fs → NoSymlinksFS fs2 ∧ ∀ st ∈ steps, NoSymlinksFS st.pre) := by
  intro files
  induction files with
  | nil =>
    intro fs fs2 steps h
    unfold processFiles at h
    cases h
    exact ⟨by simp, fun hns => ⟨hns, by simp⟩⟩
  | cons f rest ih =>
    intro fs fs2 steps h
    unfold processFiles at h
    rcases hp : processFile ext target outliers fs f with e | pr
    · rw [hp] at h; exact absurd h (by simp)
    · rcases pr with ⟨fs1, st1⟩
      simp only [hp] at h
      rcases hq : processFiles ext target outliers fs1 rest with e | pr2
      · simp only [hq] at h; exact absurd h (by simp)
      · rcases pr2 with ⟨fs3, steps'⟩
        simp only [hq] at h
        cases h
        obtain ⟨hok1, hpost, ⟨ds, hpre, hdsall⟩, hnsp⟩ := processFile_stepOk houtl hp
        obtain ⟨hoks, hns2⟩ := ih hq
        refine ⟨?_, ?_⟩
        · intro st hst
          rcases List.mem_cons.mp hst with rfl | hst
          · exact hok1
          · exact hoks st hst
        · intro hns
          obtain ⟨hns3, hpres⟩ := hns2 (hnsp hns)
          refine ⟨hns3, ?_⟩
          intro st hst
          rcases List.mem_cons.mp hst with rfl | hst
          · rw [hpre]
            exact noSym_append hns hdsall
          · exact hpres st hst

/-- Soundness of the BFS loop: every step of a completed run's trace is
`StepOk`, and on a symlink-free filesystem every step's `pre` snapshot is
symlink-free. -/
theorem runLoop_stepsOk {ext : Externals} {target : FPath}
    {outliers : Option FPath}
    (houtl : outliers = none ∨ outliers = some (target ++ ["outliers"])) :
    ∀ (fuel : Nat) {dirs : List FPath} {fs : FS} {tr : List TStep}
      {fsF : FS} {trF : List TStep},
      runLoop ext target outliers fuel dirs fs tr = some (.ok (fsF, trF)) →
      ((∀ st ∈ tr, StepOk target st) → ∀ st ∈ trF, StepOk target st) ∧
      (NoSymlinksFS fs → (∀ st ∈ tr, NoSymlinksFS st.pre) →
        ∀ st ∈ trF, NoSymlinksFS st.pre) := by
  intro fuel
  induction fuel with
  | zero =>
    intro dirs fs tr fsF trF h
    cases dirs with
    | nil =>
      unfold runLoop at h
      cases h
      exact ⟨fun ha => ha, fun _ hb => hb⟩
    | cons d rest =>
      unfold runLoop at h
      exact absurd h (by simp)
  | succ fuel ih =>
    intro dirs fs tr fsF trF h
    cases dirs with
    | nil =>
      unfold runLoop at h
      cases h
      exact ⟨fun ha => ha, fun _ hb => hb⟩
    | cons d rest =>
      unfold runLoop at h
      rcases hit : iterdir fs d with _ | entries
      · rw [hit] at h; exact absurd h (by simp)
      · simp only [hit] at h
        rcases hpf : processFiles ext target outliers fs (filesSel fs entries)
            with e | pr
        · simp only [hpf] at h; exact absurd h (by simp)
        · rcases pr with ⟨fs', steps⟩
          simp only [hpf] at h
          obtain ⟨hoks, hnspre⟩ := processFiles_stepsOk houtl hpf
          obtain ⟨ih1, ih2⟩ := ih h
          constructor
          · intro htr
            apply ih1
            intro st hst
            rcases List.mem_append.mp hst with hst | hst
            · exact htr st hst
            · rcases List.mem_cons.mp hst with rfl | hst
              · exact rfl
              · exact hoks st hst
          · intro hns htr
            obtain ⟨hns', hpres⟩ := hnspre hns
            apply ih2 hns'
            intro st hst
            rcases List.mem_append.mp hst with hst | hst
            · exact htr st hst
            · rcases List.mem_cons.mp hst with rfl | hst
              · exact hns
              · exact hpres st hst

/-- Soundness of a whole run's trace. -/
theorem runProg_trace {ext : Externals} {start targetDir : FPath} {fs0 : FS}
    {fuel : Nat} {fsF : FS} {trF : List TStep}
    (h : runProg ext start targetDir fs0 fuel = some (.ok (fsF, trF))) :
    (∀ st ∈ trF, StepOk targetDir st) ∧
    (NoSymlinksFS fs0 → ∀ st ∈ trF, NoSymlinksFS st.pre) := by
  unfold runProg at h
  rcases hc1 : createIfRequired fs0 targetDir with e | pr
  · rw [hc1] at h; exact absurd h (by simp)
  · rcases pr with ⟨fs1, o⟩
    rcases o with _ | target
    · simp only [hc1] at h; exact absurd h (by simp)
    · simp only [hc1] at h
      obtain ⟨hor1, ds1, hds1, hall1, hpre1⟩ := createIfRequired_cases hc1
      rcases hor1 with ⟨hn, _⟩ | hsome
      · exact absurd hn (by simp)
      · have htv : targetDir = target := (Option.some.inj hsome).symm
        subst htv
        rcases hc2 : createIfRequired fs1 (targetDir ++ ["outliers"]) with e | pr2
        · rw [hc2] at h; exact absurd h (by simp)
        · rcases pr2 with ⟨fs2, outliers⟩
          simp only [hc2] at h
          obtain ⟨hor2, ds2, hds2, hall2, hpre2⟩ := createIfRequired_cases hc2
          have houtl : outliers = none ∨ outliers = some (targetDir ++ ["outliers"]) := by
            rcases hor2 with ⟨hn, _⟩ | hs
            · exact Or.inl hn
            · exact Or.inr hs
          obtain ⟨h1, h2⟩ := runLoop_stepsOk houtl fuel h
          refine ⟨h1 (by simp), fun hns => h2 ?_ (by simp)⟩
          rw [hds2, hds1]
          exact noSym_append (noSym_append hns hall1) hall2

/-!
## Claims C1 and C2 - no-overwrite and no-loss

Both fail on the code: only PLACE destinations are checked for
existence.  QUARANTINE destinations (`outliers/<name>`, and the suffixed
variants) are renamed onto without any check, so a second file with the
same name (and, for the suffixed case, the same digest) silently replaces
the first, losing its content.
-/

/-- C1, amended: every PLACE move's destination does not exist
immediately before the move (line 101 checks the candidate); the
destination always lies under the target root. -/
theorem claim_C1 (ext : Externals) (start targetDir : FPath) (fs0 : FS)
    (fuel : Nat) {fsF : FS} {trF : List TStep} {st : TStep} {src dest : FPath}
    (hrun : runProg ext start targetDir fs0 fuel = some (.ok (fsF, trF)))
    (hst : st ∈ trF) (hev : st.ev = Event.move src dest MoveKind.place) :
    pathExistsB st.pre dest = false ∧ renameFS st.pre src dest = .ok st.post ∧
    targetDir <+: dest := by
  have hok := (runProg_trace hrun).1 st hst
  simp only [StepOk, hev] at hok
  obtain ⟨h1, h2, h3, _, _⟩ := hok
  exact ⟨h3 trivial, h2, h1⟩

/-- Externals for placement runs with no EXIF failures. -/
def fsW1 : FS := [(["s"], Node.dir), (["s", "img.jpg"], Node.file [5])]

/-- The trace of the one-file placement run. -/
def trW1 : List TStep :=
  match runProg extPlace ["s"] ["t"] fsW1 10 with
  | some (.ok (_, tr)) => tr
  | _ => []

/-- The PLACE step of that run (index 1, after the scan of `s`). -/
def stW1 : TStep := trW1.getD 1 ⟨[], Event.scan [], []⟩

/-- C1, witness: the PLACE move of the one-file run had a fresh
destination. -/
theorem claim_C1_witness :
    pathExistsB stW1.pre ["t", "2022", "01", "01", "img.jpg"] = false ∧
    renameFS stW1.pre ["s", "img.jpg"] ["t", "2022", "01", "01", "img.jpg"]
      = .ok stW1.post ∧
    ["t"] <+: ["t", "2022", "01", "01", "img.jpg"] :=
  claim_C1 extPlace ["s"] ["t"] fsW1 10 rfl (by decide) rfl

/-- Search a completed run's trace for a move whose destination existed
immediately before the move (an overwrite). -/
def anyOverwriteMove (r : Option (Except RunErr (FS × List TStep))) : Bool :=
  match r with
  | some (.ok (_, tr)) => tr.any (fun st =>
      match st.ev with
      | Event.move _ dest _ => pathExistsB st.pre dest
      | _ => false)
  | _ => false

/-- Externals on which every EXIF extraction fails. -/
def extNone : Externals := ⟨fun _ => none, fun c => toString c.length⟩

/-- Two same-named files with different contents in sibling directories,
both with unreadable metadata. -/
def fsClash : FS :=
  [(["s"], Node.dir),
   (["s", "a"], Node.dir), (["s", "a", "x.jpg"], Node.file [1]),
   (["s", "b"], Node.dir), (["s", "b", "x.jpg"], Node.file [2])]

/-- C1, counterexample: quarantining both `x.jpg` files sends them to the
same destination `outliers/x.jpg`; the second move's destination exists
immediately before the move, so a move does overwrite an existing file in
the outliers store. -/
theorem claim_C1_counterexample :
    anyOverwriteMove (runProg extNone ["s"] ["t"] fsClash 10) = true := rfl

/-- C2, amended: in a run over a symlink-free filesystem, every deleted
file had zero size, and every moved file had non-zero content that sits
at the move's destination (under the target root) immediately after the
move; the content survives to the end of the run only if no later move
overwrites the same destination, which quarantine moves may do. -/
theorem claim_C2 (ext : Externals) (start targetDir : FPath) (fs0 : FS)
    (fuel : Nat) {fsF : FS} {trF : List TStep}
    (hrun : runProg ext start targetDir fs0 fuel = some (.ok (fsF, trF)))
    (hns : NoSymlinksFS fs0) :
    ∀ st ∈ trF,
      (∀ f, st.ev = Event.del f → statNode st.pre f = some (Node.file [])) ∧
      (∀ src dest k, st.ev = Event.move src dest k →
        targetDir <+: dest ∧
        ∃ c, statNode st.pre src = some (Node.file c) ∧ c ≠ [] ∧
          lookupFS st.post dest = some (Node.file c)) := by
  intro st hst
  have hok := (runProg_trace hrun).1 st hst
  have hpre := (runProg_trace hrun).2 hns st hst
  constructor
  · intro f hev
    simp only [StepOk, hev] at hok
    exact hok.1
  · intro src dest k hev
    simp only [StepOk, hev] at hok
    obtain ⟨h1, _, _, _, h5⟩ := hok
    exact ⟨h1, h5 hpre⟩

/-- C2, witness: in the one-file run, the placed file's content `[5]`
sits at the destination right after the move. -/
theorem claim_C2_witness :
    ["t"] <+: ["t", "2022", "01", "01", "img.jpg"] ∧
    (∃ c, statNode stW1.pre ["s", "img.jpg"] = some (Node.file c) ∧ c ≠ [] ∧
      lookupFS stW1.post ["t", "2022", "01", "01", "img.jpg"]
        = some (Node.file c)) :=
  ((claim_C2 extPlace ["s"] ["t"] fsW1 10 rfl (by decide) stW1 (by decide)).2
    ["s", "img.jpg"] ["t", "2022", "01", "01", "img.jpg"] MoveKind.place rfl)

/-- Whether a completed run's final filesystem contains no file with the
given content. -/
def contentLost (r : Option (Except RunErr (FS × List TStep))) (c : List Nat) : Bool :=
  match r with
  | some (.ok (fs, _)) => fs.all (fun e => !(e.2 == Node.file c))
  | _ => false

/-- C2, counterexample: `s/a/x.jpg` has non-zero size and content `[1]`
at the start of the run, yet at the end of the run no file anywhere
carries that content - it was overwritten in the outliers store by the
second quarantined `x.jpg`. -/
theorem claim_C2_counterexample :
    statNode fsClash ["s", "a", "x.jpg"] = some (Node.file [1]) ∧
    contentLost (runProg extNone ["s"] ["t"] fsClash 10) [1] = true :=
  ⟨rfl, rfl⟩

/-!
## Claim C5 - no revisitation

The claim fails when the target tree lies inside the scanned tree: the
outliers store is created before the scan begins, so it is enumerated and
appended to the pending list like any subdirectory, and the files already
quarantined there are re-processed.  When the target root and the source
root are disjoint (neither a prefix of the other), every scanned
directory and every processed file lies under the source root and never
under the target root, where all run-created directories live.
-/

/-- Every event of one file-processing step concerns that file. -/
theorem processFile_src {ext : Externals} {target : FPath}
    {outliers : Option FPath} {fs fs' : FS} {f : FPath} {st : TStep}
    (h : processFile ext target outliers fs f = .ok (fs', st)) :
    st.ev = Event.del f ∨ ∃ dest k, st.ev = Event.move f dest k := by
  unfold processFile at h
  rcases hstat : statNode fs f with _ | nd
  · rw [hstat] at h; exact absurd h (by simp)
  · simp only [hstat] at h
    cases nd with
    | dir => exact absurd h (by simp)
    | symlink t => exact absurd h (by simp)
    | file c =>
      simp only [] at h
      by_cases hz : c.length = 0
      · rw [if_pos hz] at h
        rcases hu : unlinkFS fs f with e | fs1
        · rw [hu] at h; exact absurd h (by simp)
        · simp only [hu] at h
          cases h
          exact Or.inl rfl
      · rw [if_neg hz] at h
        rcases hdt : ext.getDT c with _ | dt
        · simp only [hdt] at h
          rcases outliers with _ | outl
          · exact absurd h (by simp)
          · rcases hr : renameFS fs f (outl ++ [fname f]) with e | fs1
            · simp only [hr] at h; exact absurd h (by simp)
            · simp only [hr] at h
              cases h
              exact Or.inr ⟨_, _, rfl⟩
        · simp only [hdt] at h
          rcases hcr : createIfRequired fs (dateDirPath target dt) with e | pr
          · rw [hcr] at h; exact absurd h (by simp)
          · rcases pr with ⟨fs1, o⟩
            rcases o with _ | dateDir
            · simp only [hcr] at h; exact absurd h (by simp)
            · simp only [hcr] at h
              by_cases hex : pathExistsB fs1 (dateDir ++ [fname f]) = true
              · rw [if_pos hex] at h
                rcases hrb : readBytes fs1 f with _ | cf
                · simp only [hrb] at h; exact absurd h (by simp)
                · rcases hrb2 : readBytes fs1 (dateDir ++ [fname f]) with _ | ct
                  · simp only [hrb, hrb2] at h; exact absurd h (by simp)
                  · simp only [hrb, hrb2] at h
                    by_cases hd : ext.digest cf = ext.digest ct
                    · rw [if_pos hd] at h
                      rcases outliers with _ | outl
                      · exact absurd h (by simp)
                      · rcases hr : renameFS fs1 f
                            (outl ++ [fname f ++ "-" ++ ext.digest cf]) with e | fs2
                        · simp only [hr] at h; exact absurd h (by simp)
                        · simp only [hr] at h
                          cases h
                          exact Or.inr ⟨_, _, rfl⟩
                    · rw [if_neg hd] at h
                      rcases hr : renameFS fs1 f
                          (dateDir ++ [fname f ++ "-" ++ ext.digest cf]) with e | fs2
                      · simp only [hr] at h; exact absurd h (by simp)
                      · simp only [hr] at h
                        cases h
                        exact Or.inr ⟨_, _, rfl⟩
              · rw [if_neg hex] at h
                rcases hr : renameFS fs1 f (dateDir ++ [fname f]) with e | fs2
                · simp only [hr] at h; exact absurd h (by simp)
                · simp only [hr] at h
                  cases h
                  exact Or.inr ⟨_, _, rfl⟩

/-- Every step of a directory's file-processing concerns a file of the
processed list. -/
theorem processFiles_srcs {ext : Externals} {target : FPath}
    {outliers : Option FPath} :
    ∀ {files : List FPath} {fs fs2 : FS} {steps : List TStep},
      processFiles ext target outliers fs files = .ok (fs2, steps) →
      ∀ st ∈ steps, ∃ f ∈ files,
        st.ev = Event.del f ∨ ∃ dest k, st.ev = Event.move f dest k := by
  intro files
  induction files with
  | nil =>
    intro fs fs2 steps h
    unfold processFiles at h
    cases h
    simp
  | cons f rest ih =>
    intro fs fs2 steps h
    unfold processFiles at h
    rcases hp : processFile ext target outliers fs f with e | pr
    · rw [hp] at h; exact absurd h (by simp)
    · rcases pr with ⟨fs1, st1⟩
      simp only [hp] at h
      rcases hq : processFiles ext target outliers fs1 rest with e | pr2
      · simp only [hq] at h; exact absurd h (by simp)
      · rcases pr2 with ⟨fs3, steps'⟩
        simp only [hq] at h
        cases h
        intro st hst
        rcases List.mem_cons.mp hst with rfl | hst
        · exact ⟨f, List.mem_cons_self f rest, processFile_src hp⟩
        · obtain ⟨f', hf', hev⟩ := ih hq st hst
          exact ⟨f', List.mem_cons_of_mem f hf', hev⟩

/-- The entries of a directory listing extend the listed path by one
component. -/
theorem iterdir_entries {fs : FS} {d : FPath} {entries : List FPath}
    (h : iterdir fs d = some entries) : ∀ x ∈ entries, ∃ n, x = d ++ [n] := by
  unfold iterdir at h
  rcases hr : resolveFrom fs maxHops [] d with _ | r
  · rw [hr] at h; exact absurd h (by simp)
  · simp only [hr] at h
    by_cases hc : (decide (r = []) || (lookupFS fs r == some Node.dir)) = true
    · rw [if_pos hc] at h
      cases h
      intro x hx
      obtain ⟨n, _, hn⟩ := List.mem_map.mp hx
      exact ⟨n, hn.symm⟩
    · rw [if_neg hc] at h; exact absurd h (by simp)

/-- Provenance of a recorded run event. -/
def StepFrom (start : FPath) (st : TStep) : Prop :=
  match st.ev with
  | Event.scan d => start <+: d
  | Event.del f => start <+: f
  | Event.move src _ _ => start <+: src

/-- Every scanned directory and every processed file of the BFS loop lies
under the start root: the pending list holds only descendants of the
start root, and listings extend the listed directory. -/
theorem runLoop_srcs {ext : Externals} {target : FPath}
    {outliers : Option FPath} (start : FPath) :
    ∀ (fuel : Nat) {dirs : List FPath} {fs : FS} {tr : List TStep}
      {fsF : FS} {trF : List TStep},
      runLoop ext target outliers fuel dirs fs tr = some (.ok (fsF, trF)) →
      (∀ d ∈ dirs, start <+: d) →
      (∀ st ∈ tr, StepFrom start st) →
      ∀ st ∈ trF, StepFrom start st := by
  intro fuel
  induction fuel with
  | zero =>
    intro dirs fs tr fsF trF h hdirs htr
    cases dirs with
    | nil => unfold runLoop at h; cases h; exact htr
    | cons d rest => unfold runLoop at h; exact absurd h (by simp)
  | succ fuel ih =>
    intro dirs fs tr fsF trF h hdirs htr
    cases dirs with
    | nil => unfold runLoop at h; cases h; exact htr
    | cons d rest =>
      unfold runLoop at h
      rcases hit : iterdir fs d with _ | entries
      · rw [hit] at h; exact absurd h (by simp)
      · simp only [hit] at h
        rcases hpf : processFiles ext target outliers fs (filesSel fs entries)
            with e | pr
        · simp only [hpf] at h; exact absurd h (by simp)
        · rcases pr with ⟨fs', steps⟩
          simp only [hpf] at h
          have hd : start <+: d := hdirs d (List.mem_cons_self d rest)
          have hentry : ∀ x ∈ entries, start <+: x := by
            intro x hx
            obtain ⟨n, hn⟩ := iterdir_entries hit x hx
            rw [hn]
            exact hd.trans (List.prefix_append d [n])
          apply ih h
          · intro d' hd'
            rcases List.mem_append.mp hd' with hd' | hd'
            · exact hdirs d' (List.mem_cons_of_mem d hd')
            · exact hentry d' (List.mem_of_mem_filter hd')
          · intro st hst
            rcases List.mem_append.mp hst with hst | hst
            · exact htr st hst
            · rcases List.mem_cons.mp hst with rfl | hst
              · exact hd
              · obtain ⟨f, hf, hev⟩ := processFiles_srcs hpf st hst
                have hsf : start <+: f := hentry f (List.mem_of_mem_filter hf)
                rcases hev with hev | ⟨dest, k, hev⟩ <;>
                  simp only [StepFrom, hev] <;> exact hsf

/-- Every scanned directory and every processed file of a whole run lies
under the starting root. -/
theorem runProg_srcs {ext : Externals} {start targetDir : FPath} {fs0 : FS}
    {fuel : Nat} {fsF : FS} {trF : List TStep}
    (h : runProg ext start targetDir fs0 fuel = some (.ok (fsF, trF))) :
    ∀ st ∈ trF, StepFrom start st := by
  unfold runProg at h
  rcases hc1 : createIfRequired fs0 targetDir with e | pr
  · rw [hc1] at h; exact absurd h (by simp)
  · rcases pr with ⟨fs1, o⟩
    rcases o with _ | target
    · simp only [hc1] at h; exact absurd h (by simp)
    · simp only [hc1] at h
      rcases hc2 : createIfRequired fs1 (target ++ ["outliers"]) with e | pr2
      · rw [hc2] at h; exact absurd h (by simp)
      · rcases pr2 with ⟨fs2, outliers⟩
        simp only [hc2] at h
        exact runLoop_srcs start fuel h (by simp) (by simp)

/-- C5, amended: provided the target root and the starting root are
disjoint (neither is a prefix of the other), every directory the run
scans and every file it moves or deletes lies (as a literal path) under
the starting root and never under the target root - where the outliers
store and all date subtrees are created - so output directories are never
appended to the pending list and files already placed or quarantined are
never re-processed.  (With the target root inside the scanned tree the
property fails, see the counterexample; a symbolic link from the source
tree into the target tree could also alias placed files, cf. C10.) -/
theorem claim_C5 (ext : Externals) (start targetDir : FPath) (fs0 : FS)
    (fuel : Nat) {fsF : FS} {trF : List TStep}
    (hrun : runProg ext start targetDir fs0 fuel = some (.ok (fsF, trF)))
    (h1 : ¬ start <+: targetDir) (h2 : ¬ targetDir <+: start) :
    ∀ st ∈ trF,
      (∀ d, st.ev = Event.scan d → start <+: d ∧ ¬ targetDir <+: d) ∧
      (∀ src dest k, st.ev = Event.move src dest k →
        start <+: src ∧ ¬ targetDir <+: src) := by
  have hcomp : ∀ p : FPath, start <+: p → ¬ targetDir <+: p := by
    intro p hs ht
    rcases List.prefix_or_prefix_of_prefix hs ht with hc | hc
    · exact h1 hc
    · exact h2 hc
  intro st hst
  have hsf := runProg_srcs hrun st hst
  constructor
  · intro d hev
    simp only [StepFrom, hev] at hsf
    exact ⟨hsf, hcomp d hsf⟩
  · intro src dest k hev
    simp only [StepFrom, hev] at hsf
    exact ⟨hsf, hcomp src hsf⟩

/-- C5, witness: in the disjoint-roots one-file run, the processed file
lies under the source root and not under the target root. -/
theorem claim_C5_witness :
    (["s"] : FPath) <+: ["s", "img.jpg"] ∧ ¬ (["t"] : FPath) <+: ["s", "img.jpg"] :=
  (claim_C5 extPlace ["s"] ["t"] fsW1 10 rfl (by decide) (by decide) stW1
      (by decide)).2 ["s", "img.jpg"] ["t", "2022", "01", "01", "img.jpg"]
    MoveKind.place rfl

/-- Search a trace for a scan of the given directory. -/
def anyScanOf (r : Option (Except RunErr (FS × List TStep))) (d : FPath) : Bool :=
  match r with
  | some (.ok (_, tr)) => tr.any (fun st => st.ev == Event.scan d)
  | _ => false

/-- Search a trace for a move or delete whose source lies under the
given directory. -/
def anySrcUnder (r : Option (Except RunErr (FS × List TStep))) (p : FPath) : Bool :=
  match r with
  | some (.ok (_, tr)) => tr.any (fun st =>
      match st.ev with
      | Event.move src _ _ => p.isPrefixOf src
      | Event.del f => p.isPrefixOf f
      | _ => false)
  | _ => false

/-- A source tree containing the target root (`s/t` is created by the
run inside the scanned tree `s`). -/
def fsNest : FS := [(["s"], Node.dir), (["s", "a.jpg"], Node.file [1])]

/-- C5, counterexample: with the target root inside the source tree, the
outliers store created by the run is appended to the pending list and
scanned, and the file it already quarantined is processed a second
time. -/
theorem claim_C5_counterexample :
    anyScanOf (runProg extNone ["s"] ["s", "t"] fsNest 10)
      ["s", "t", "outliers"] = true ∧
    anySrcUnder (runProg extNone ["s"] ["s", "t"] fsNest 10)
      ["s", "t", "outliers"] = true :=
  ⟨rfl, rfl⟩

/-!
## Claim C8 - termination of the traversal

Measure: the number of directory entries strictly below each pending
directory.  On a symlink-free filesystem with the target root disjoint
from the start root, directories created by the run (all under the
target root) never count towards pending directories (all under the
start root), so each loop iteration strictly decreases the measure.
-/

/-- A successful lookup comes from a filesystem entry. -/
theorem lookup_some_mem {fs : FS} {p : FPath} {n : Node}
    (h : lookupFS fs p = some n) : (p, n) ∈ fs := by
  unfold lookupFS at h
  rcases hf : fs.find? (fun e => e.1 = p) with _ | e
  · rw [hf] at h; exact absurd h (by simp)
  · rw [hf] at h
    have hmem := List.mem_of_find?_eq_some hf
    have hkey := List.find?_some hf
    simp only [decide_eq_true_eq] at hkey
    rcases e with ⟨q, m⟩
    cases h
    cases hkey
    exact hmem

/-- In a filesystem with pairwise-distinct keys, membership determines
the lookup. -/
theorem lookup_of_mem_nodup {fs : FS} (hnd : NodupKeysFS fs) {p : FPath}
    {n : Node} (h : (p, n) ∈ fs) : lookupFS fs p = some n := by
  induction fs with
  | nil => exact absurd h (by simp)
  | cons e fs ih =>
    rcases e with ⟨q, m⟩
    have hnd' : NodupKeysFS fs := (List.nodup_cons.mp hnd).2
    rcases List.mem_cons.mp h with he | he
    · cases he
      rw [lookupFS_cons, if_pos rfl]
    · have hq : q ≠ p := by
        intro hqp
        subst hqp
        exact (List.nodup_cons.mp hnd).1 (List.mem_map.mpr ⟨(q, n), he, rfl⟩)
      rw [lookupFS_cons, if_neg hq]
      exact ih hnd' he

/-- A missing lookup means no entry with that key. -/
theorem lookup_none_not_mem {fs : FS} {p : FPath}
    (h : lookupFS fs p = none) : ∀ n, (p, n) ∉ fs := by
  intro n hmem
  unfold lookupFS at h
  rcases hf : fs.find? (fun e => e.1 = p) with _ | e
  · have := List.find?_eq_none.mp hf (p, n) hmem
    simp at this
  · rw [hf] at h; exact absurd h (by simp)

/-- The set of directory-entry paths of a filesystem. -/
def dirPathsFin (fs : FS) : Finset FPath :=
  (fs.filterMap (fun e => match e.2 with | Node.dir => some e.1 | _ => none)).toFinset

/-- Membership in `dirPathsFin` is directory-entry membership. -/
theorem mem_dirPathsFin {fs : FS} {p : FPath} :
    p ∈ dirPathsFin fs ↔ (p, Node.dir) ∈ fs := by
  unfold dirPathsFin
  rw [List.mem_toFinset, List.mem_filterMap]
  constructor
  · rintro ⟨⟨q, m⟩, hmem, hm⟩
    cases m with
    | dir => simp only [Option.some.injEq] at hm; subst hm; exact hmem
    | file c => exact absurd hm (by simp)
    | symlink t => exact absurd hm (by simp)
  · intro hmem
    exact ⟨(p, Node.dir), hmem, rfl⟩

/-- Removing an entry keeps keys pairwise distinct. -/
theorem nodup_removeKey {fs : FS} (hnd : NodupKeysFS fs) (k : FPath) :
    NodupKeysFS (removeKey fs k) := by
  unfold NodupKeysFS removeKey at *
  exact List.Sublist.nodup ((List.filter_sublist fs).map Prod.fst) hnd

/-- `mkdirGo` keeps keys pairwise distinct (it only appends missing
paths). -/
theorem mkdirGo_nodup {fs : FS} {acc : FPath} {rest : List String} {fs' : FS}
    (h : mkdirGo fs acc rest = .ok fs') (hnd : NodupKeysFS fs) :
    NodupKeysFS fs' := by
  induction rest generalizing fs acc with
  | nil =>
    unfold mkdirGo at h
    cases h
    exact hnd
  | cons c cs ih =>
    simp only [mkdirGo] at h
    rcases hl : lookupFS fs (acc ++ [c]) with _ | nd
    · rw [hl] at h
      refine ih h ?_
      unfold NodupKeysFS at *
      rw [List.map_append, List.nodup_append]
      refine ⟨hnd, by simp, ?_⟩
      intro q hq hq'
      simp only [List.map_cons, List.map_nil, List.mem_singleton] at hq'
      subst hq'
      obtain ⟨⟨q', n⟩, hmem, hkey⟩ := List.mem_map.mp hq
      simp only at hkey
      subst hkey
      exact lookup_none_not_mem hl n hmem
    · rw [hl] at h
      cases nd with
      | dir => exact ih h hnd
      | file content => exact absurd h (by simp)
      | symlink t => exact absurd h (by simp)

/-- `create_if_required` keeps keys pairwise distinct. -/
theorem createIfRequired_nodup {fs fs1 : FS} {p : FPath} {o : Option FPath}
    (h : createIfRequired fs p = .ok (fs1, o)) (hnd : NodupKeysFS fs) :
    NodupKeysFS fs1 := by
  unfold createIfRequired at h
  by_cases h1 : isDirB fs p = true
  · rw [if_pos h1] at h; cases h; exact hnd
  · rw [if_neg h1] at h
    by_cases h2 : pathExistsB fs p = true
    · rw [if_pos h2] at h; cases h; exact hnd
    · rw [if_neg h2] at h
      rcases hm : mkdirParents fs p with e | fs2
      · rw [hm] at h; exact absurd h (by simp)
      · rw [hm] at h
        cases h
        exact mkdirGo_nodup hm hnd

/-- On a symlink-free filesystem, unlinking removes exactly the literal
entry. -/
theorem unlinkFS_noSym {fs fs' : FS} {p : FPath} (hns : NoSymlinksFS fs)
    (h : unlinkFS fs p = .ok fs') : fs' = removeKey fs p := by
  unfold unlinkFS at h
  rcases hl : p.getLast? with _ | last
  · rw [hl] at h; exact absurd h (by simp)
  · simp only [hl] at h
    rcases hr : resolveFrom fs maxHops [] p.dropLast with _ | rp
    · rw [hr] at h; exact absurd h (by simp)
    · simp only [hr] at h
      have hrp : rp = p.dropLast := by simpa using resolveFrom_noSym hns hr
      subst hrp
      rw [List.dropLast_append_getLast? last hl] at h
      by_cases hs : (lookupFS fs p).isSome
      · rw [if_pos hs] at h
        cases h
        rfl
      · rw [if_neg hs] at h; exact absurd h (by simp)

/-- Renaming keeps keys pairwise distinct. -/
theorem renameFS_nodup {fs fs' : FS} {src dest : FPath}
    (hns : NoSymlinksFS fs) (hnd : NodupKeysFS fs)
    (h : renameFS fs src dest = .ok fs') : NodupKeysFS fs' := by
  obtain ⟨node, hlk, hfs', _⟩ := renameFS_noSym hns h
  subst hfs'
  unfold NodupKeysFS
  rw [List.map_cons]
  refine List.nodup_cons.mpr ⟨?_, nodup_removeKey (nodup_removeKey hnd src) dest⟩
  intro hmem
  obtain ⟨⟨q, m⟩, hq, hkey⟩ := List.mem_map.mp hmem
  simp only at hkey
  subst hkey
  have := List.mem_filter.mp hq
  simp at this

/-- Entry membership in a `removeKey` result. -/
theorem mem_removeKey {fs : FS} {k : FPath} {e : FPath × Node} :
    e ∈ removeKey fs k ↔ e ∈ fs ∧ e.1 ≠ k := by
  unfold removeKey
  rw [List.mem_filter]
  simp

/-- Removing an entry only removes directory paths. -/
theorem dirs_removeKey_subset {fs : FS} {k : FPath} :
    ∀ p, p ∈ dirPathsFin (removeKey fs k) → p ∈ dirPathsFin fs := by
  intro p hp
  rw [mem_dirPathsFin] at hp ⊢
  exact (mem_removeKey.mp hp).1

/-- Removing the entry of a regular file keeps every directory path. -/
theorem dirs_removeKey_of_file {fs : FS} {k : FPath} (hnd : NodupKeysFS fs)
    {c : List Nat} (hlk : lookupFS fs k = some (Node.file c)) :
    ∀ p, p ∈ dirPathsFin fs → p ∈ dirPathsFin (removeKey fs k) := by
  intro p hp
  rw [mem_dirPathsFin] at hp ⊢
  refine mem_removeKey.mpr ⟨hp, ?_⟩
  intro hpk
  subst hpk
  rw [lookup_of_mem_nodup hnd hp] at hlk
  exact absurd hlk (by simp)

/-- The filesystem after a symlink-free rename of a regular file has the
same directory paths. -/
theorem dirs_rename {fs1 : FS} {src dest : FPath} {c : List Nat}
    (hnd1 : NodupKeysFS fs1)
    (hsrc : lookupFS fs1 src = some (Node.file c))
    (hdest : lookupFS fs1 dest ≠ some Node.dir) :
    (∀ p, p ∈ dirPathsFin fs1 →
      p ∈ dirPathsFin ((dest, Node.file c) :: removeKey (removeKey fs1 src) dest)) ∧
    (∀ p, p ∈ dirPathsFin ((dest, Node.file c) :: removeKey (removeKey fs1 src) dest) →
      p ∈ dirPathsFin fs1) := by
  constructor
  · intro p hp
    rw [mem_dirPathsFin] at hp ⊢
    have hpsrc : p ≠ src := by
      intro hpk
      subst hpk
      rw [lookup_of_mem_nodup hnd1 hp] at hsrc
      exact absurd hsrc (by simp)
    have hpdest : p ≠ dest := by
      intro hpk
      subst hpk
      exact hdest (lookup_of_mem_nodup hnd1 hp)
    refine List.mem_cons.mpr (Or.inr ?_)
    exact mem_removeKey.mpr ⟨mem_removeKey.mpr ⟨hp, hpsrc⟩, hpdest⟩
  · intro p hp
    rw [mem_dirPathsFin] at hp ⊢
    rcases List.mem_cons.mp hp with he | he
    · exact absurd (congrArg Prod.snd he) (by simp)
    · exact (mem_removeKey.mp (mem_removeKey.mp he).1).1

/-- One file-processing step preserves symlink-freedom and key
distinctness, never removes a directory entry, and creates directories
only under the target root. -/
theorem processFile_dirs {ext : Externals} {target : FPath}
    {outliers : Option FPath} {fs fs' : FS} {f : FPath} {st : TStep}
    (hns : NoSymlinksFS fs) (hnd : NodupKeysFS fs)
    (h : processFile ext target outliers fs f = .ok (fs', st)) :
    NoSymlinksFS fs' ∧ NodupKeysFS fs' ∧
    (∀ p, p ∈ dirPathsFin fs → p ∈ dirPathsFin fs') ∧
    (∀ p, p ∈ dirPathsFin fs' → p ∈ dirPathsFin fs ∨ ∃ w, p <+: target ++ w) := by
  unfold processFile at h
  rcases hstat : statNode fs f with _ | nd
  · rw [hstat] at h; exact absurd h (by simp)
  · simp only [hstat] at h
    cases nd with
    | dir => exact absurd h (by simp)
    | symlink t => exact absurd h (by simp)
    | file c =>
      simp only [] at h
      have hlkf : lookupFS fs f = some (Node.file c) := by
        rcases statNode_noSym_lookup hns hstat with ⟨_, hnd2⟩ | hlk
        · exact absurd hnd2 (by simp)
        · exact hlk
      by_cases hz : c.length = 0
      · -- DELETE
        rw [if_pos hz] at h
        rcases hu : unlinkFS fs f with e | fs1
        · rw [hu] at h; exact absurd h (by simp)
        · simp only [hu] at h
          cases h
          have hrem := unlinkFS_noSym hns hu
          subst hrem
          exact ⟨noSym_removeKey hns f, nodup_removeKey hnd f,
            dirs_removeKey_of_file hnd hlkf,
            fun p hp => Or.inl (dirs_removeKey_subset p hp)⟩
      · rw [if_neg hz] at h
        rcases hdt : ext.getDT c with _ | dt
        · -- QUARANTINE
          simp only [hdt] at h
          rcases outliers with _ | outl
          · exact absurd h (by simp)
          · rcases hr : renameFS fs f (outl ++ [fname f]) with e | fs1
            · simp only [hr] at h; exact absurd h (by simp)
            · simp only [hr] at h
              cases h
              obtain ⟨node, hlk, hfs1, hndest⟩ := renameFS_noSym hns hr
              rw [hlkf] at hlk
              cases hlk
              obtain ⟨hmono, hsub⟩ := dirs_rename hnd hlkf hndest
              rw [hfs1]
              exact ⟨hfs1 ▸ renameFS_preserves_noSym hns hr,
                hfs1 ▸ renameFS_nodup hns hnd hr,
                hmono, fun p hp => Or.inl (hsub p hp)⟩
        · -- date placement
          simp only [hdt] at h
          rcases hcr : createIfRequired fs (dateDirPath target dt) with e | pr
          · rw [hcr] at h; exact absurd h (by simp)
          · rcases pr with ⟨fs1, o⟩
            rcases o with _ | dateDir
            · simp only [hcr] at h; exact absurd h (by simp)
            · simp only [hcr] at h
              obtain ⟨hor, ds, hds, hdsall, hdspre⟩ := createIfRequired_cases hcr
              rcases hor with ⟨hn, _⟩ | hsome
              · exact absurd hn (by simp)
              · have hdd : dateDir = dateDirPath target dt := Option.some.inj hsome
                subst hdd
                have hns1 : NoSymlinksFS fs1 := by
                  rw [hds]; exact noSym_append hns hdsall
                have hnd1 : NodupKeysFS fs1 := createIfRequired_nodup hcr hnd
                have hlk1 : lookupFS fs1 f = some (Node.file c) := by
                  rw [hds]; exact lookupFS_append_of_some _ hlkf
                have hmono1 : ∀ p, p ∈ dirPathsFin fs → p ∈ dirPathsFin fs1 := by
                  intro p hp
                  rw [mem_dirPathsFin] at hp ⊢
                  rw [hds]
                  exact List.mem_append.mpr (Or.inl hp)
                have hsub1 : ∀ p, p ∈ dirPathsFin fs1 →
                    p ∈ dirPathsFin fs ∨ ∃ w, p <+: target ++ w := by
                  intro p hp
                  rw [mem_dirPathsFin] at hp
                  rw [hds] at hp
                  rcases List.mem_append.mp hp with hp | hp
                  · exact Or.inl (mem_dirPathsFin.mpr hp)
                  · right
                    refine ⟨[toString dt.year, pad2 dt.month, pad2 dt.day], ?_⟩
                    have := hdspre _ hp
                    simpa [dateDirPath] using this
                have hfin : ∀ {dest : FPath} {fs2 : FS},
                    renameFS fs1 f dest = .ok fs2 →
                    NoSymlinksFS fs2 ∧ NodupKeysFS fs2 ∧
                    (∀ p, p ∈ dirPathsFin fs → p ∈ dirPathsFin fs2) ∧
                    (∀ p, p ∈ dirPathsFin fs2 →
                      p ∈ dirPathsFin fs ∨ ∃ w, p <+: target ++ w) := by
                  intro dest fs2 hr
                  obtain ⟨node, hlk, hfs2, hndest⟩ := renameFS_noSym hns1 hr
                  rw [hlk1] at hlk
                  cases hlk
                  obtain ⟨hmono2, hsub2⟩ := dirs_rename hnd1 hlk1 hndest
                  refine ⟨renameFS_preserves_noSym hns1 hr,
                    renameFS_nodup hns1 hnd1 hr, ?_, ?_⟩
                  · intro p hp
                    rw [hfs2]
                    exact hmono2 p (hmono1 p hp)
                  · intro p hp
                    rw [hfs2] at hp
                    exact hsub1 p (hsub2 p hp)
                by_cases hex : pathExistsB fs1 (dateDirPath target dt ++ [fname f]) = true
                · rw [if_pos hex] at h
                  rcases hrb : readBytes fs1 f with _ | cf
                  · simp only [hrb] at h; exact absurd h (by simp)
                  · rcases hrb2 : readBytes fs1 (dateDirPath target dt ++ [fname f])
                        with _ | ct
                    · simp only [hrb, hrb2] at h; exact absurd h (by simp)
                    · simp only [hrb, hrb2] at h
                      by_cases hd : ext.digest cf = ext.digest ct
                      · rw [if_pos hd] at h
                        rcases outliers with _ | outl
                        · exact absurd h (by simp)
                        · rcases hr : renameFS fs1 f
                              (outl ++ [fname f ++ "-" ++ ext.digest cf]) with e | fs2
                          · simp only [hr] at h; exact absurd h (by simp)
                          · simp only [hr] at h
                            cases h
                            exact hfin hr
                      · rw [if_neg hd] at h
                        rcases hr : renameFS fs1 f
                            (dateDirPath target dt ++ [fname f ++ "-" ++ ext.digest cf])
                            with e | fs2
                        · simp only [hr] at h; exact absurd h (by simp)
                        · simp only [hr] at h
                          cases h
                          exact hfin hr
                · rw [if_neg hex] at h
                  rcases hr : renameFS fs1 f (dateDirPath target dt ++ [fname f])
                      with e | fs2
                  · simp only [hr] at h; exact absurd h (by simp)
                  · simp only [hr] at h
                    cases h
                    exact hfin hr

/-- Processing a directory's files preserves symlink-freedom and key
distinctness, never removes a directory entry, and creates directories
only under the target root. -/
theorem processFiles_dirs {ext : Externals} {target : FPath}
    {outliers : Option FPath} :
    ∀ {files : List FPath} {fs fs2 : FS} {steps : List TStep},
      NoSymlinksFS fs → NodupKeysFS fs →
      processFiles ext target outliers fs files = .ok (fs2, steps) →
      NoSymlinksFS fs2 ∧ NodupKeysFS fs2 ∧
      (∀ p, p ∈ dirPathsFin fs → p ∈ dirPathsFin fs2) ∧
      (∀ p, p ∈ dirPathsFin fs2 → p ∈ dirPathsFin fs ∨ ∃ w, p <+: target ++ w) := by
  intro files
  induction files with
  | nil =>
    intro fs fs2 steps hns hnd h
    unfold processFiles at h
    cases h
    exact ⟨hns, hnd, fun p hp => hp, fun p hp => Or.inl hp⟩
  | cons f rest ih =>
    intro fs fs2 steps hns hnd h
    unfold processFiles at h
    rcases hp : processFile ext target outliers fs f with e | pr
    · rw [hp] at h; exact absurd h (by simp)
    · rcases pr with ⟨fs1, st1⟩
      simp only [hp] at h
      rcases hq : processFiles ext target outliers fs1 rest with e | pr2
      · simp only [hq] at h; exact absurd h (by simp)
      · rcases pr2 with ⟨fs3, steps'⟩
        simp only [hq] at h
        cases h
        obtain ⟨hns1, hnd1, hmono1, hsub1⟩ := processFile_dirs hns hnd hp
        obtain ⟨hns3, hnd3, hmono3, hsub3⟩ := ih hns1 hnd1 hq
        refine ⟨hns3, hnd3, fun p hpm => hmono3 p (hmono1 p hpm), ?_⟩
        intro p hpm
        rcases hsub3 p hpm with hpm | hw
        · exact hsub1 p hpm
        · exact Or.inr hw

/-- The number of directory entries strictly below `d`. -/
def descT (fs : FS) (d : FPath) : Nat :=
  ((dirPathsFin fs).filter (fun p => d <+: p ∧ p ≠ d)).card

/-- The termination measure of the pending list: one unit per pending
directory plus one per directory entry strictly below it. -/
def measureQ (fs : FS) (dirs : List FPath) : Nat :=
  (dirs.map (fun d => 1 + descT fs d)).sum

theorem measureQ_cons (fs : FS) (d : FPath) (rest : List FPath) :
    measureQ fs (d :: rest) = (1 + descT fs d) + measureQ fs rest := by
  simp [measureQ]

theorem measureQ_append (fs : FS) (l1 l2 : List FPath) :
    measureQ fs (l1 ++ l2) = measureQ fs l1 + measureQ fs l2 := by
  simp [measureQ]

theorem measureQ_congr {fs fs' : FS} {dirs : List FPath}
    (h : ∀ d ∈ dirs, descT fs' d = descT fs d) :
    measureQ fs' dirs = measureQ fs dirs := by
  unfold measureQ
  rw [List.map_congr_left (fun d hd => by rw [h d hd])]

/-- Directories under a start root disjoint from the target root keep
their strict-descendant count across a step that only adds directories
under the target root. -/
theorem descT_inv {fs fs' : FS} {target start d : FPath}
    (h1 : ¬ start <+: target) (h2 : ¬ target <+: start) (hd : start <+: d)
    (hmono : ∀ p, p ∈ dirPathsFin fs → p ∈ dirPathsFin fs')
    (hnew : ∀ p, p ∈ dirPathsFin fs' → p ∈ dirPathsFin fs ∨ ∃ w, p <+: target ++ w) :
    descT fs' d = descT fs d := by
  unfold descT
  congr 1
  ext p
  simp only [Finset.mem_filter]
  constructor
  · rintro ⟨hp, hdp, hne⟩
    refine ⟨?_, hdp, hne⟩
    rcases hnew p hp with hmem | ⟨w, hw⟩
    · exact hmem
    · exfalso
      have hsp : start <+: target ++ w := (hd.trans hdp).trans hw
      have htp : target <+: target ++ w := List.prefix_append _ _
      rcases List.prefix_or_prefix_of_prefix hsp htp with hc | hc
      · exact h1 hc
      · exact h2 hc
  · rintro ⟨hp, hdp, hne⟩
    exact ⟨hmono p hp, hdp, hne⟩

/-- A produced child name determines the child's literal path. -/
theorem childNames_fn {d : FPath} {e : FPath × Node} {n : String}
    (hg : (if d.isPrefixOf e.1 && e.1.length == d.length + 1 then e.1.getLast?
      else none) = some n) :
    e.1 = d ++ [n] := by
  by_cases hc : (d.isPrefixOf e.1 && e.1.length == d.length + 1) = true
  · rw [if_pos hc] at hg
    obtain ⟨hpre, hlen⟩ := Bool.and_eq_true_iff.mp hc
    have hpre' : d <+: e.1 := List.isPrefixOf_iff_prefix.mp hpre
    obtain ⟨t, ht⟩ := hpre'
    have hlen' : e.1.length = d.length + 1 := by simpa using hlen
    have ht1 : t.length = 1 := by
      have := congrArg List.length ht
      simp only [List.length_append] at this
      omega
    obtain ⟨x, hx⟩ := List.length_eq_one.mp ht1
    subst hx
    have hlast : e.1.getLast? = some x := by
      rw [← ht]
      exact List.getLast?_concat _
    rw [hlast] at hg
    cases hg
    exact ht.symm
  · rw [if_neg hc] at hg
    exact absurd hg (by simp)

/-- A child name comes with an entry at the child's path. -/
theorem childNames_mem {fs : FS} {d : FPath} {n : String}
    (hn : n ∈ childNames fs d) : ∃ m, (d ++ [n], m) ∈ fs := by
  unfold childNames at hn
  obtain ⟨e, hmem, hg⟩ := List.mem_filterMap.mp hn
  refine ⟨e.2, ?_⟩
  have := childNames_fn hg
  rw [← this]
  exact hmem

/-- With pairwise-distinct keys the child names of a directory are
pairwise distinct. -/
theorem childNames_nodup {fs : FS} (hnd : NodupKeysFS fs) (d : FPath) :
    (childNames fs d).Nodup := by
  induction fs with
  | nil => simp [childNames]
  | cons e fs ih =>
    obtain ⟨hkey, hnd'⟩ := List.nodup_cons.mp hnd
    unfold childNames
    rw [List.filterMap_cons]
    rcases hg : (if d.isPrefixOf e.1 && e.1.length == d.length + 1 then e.1.getLast?
        else none) with _ | n
    · exact ih hnd'
    · refine List.nodup_cons.mpr ⟨?_, ih hnd'⟩
      intro hnmem
      obtain ⟨m, hm⟩ := childNames_mem hnmem
      apply hkey
      rw [childNames_fn hg]
      exact List.mem_map.mpr ⟨(d ++ [n], m), hm, rfl⟩

/-- On a symlink-free filesystem a directory listing is the literal
children of the listed path. -/
theorem iterdir_noSym {fs : FS} (hns : NoSymlinksFS fs) {d : FPath}
    {entries : List FPath} (h : iterdir fs d = some entries) :
    entries = (childNames fs d).map (fun n => d ++ [n]) := by
  unfold iterdir at h
  rcases hr : resolveFrom fs maxHops [] d with _ | r
  · rw [hr] at h; exact absurd h (by simp)
  · simp only [hr] at h
    have hrd : d = r := by simpa using (resolveFrom_noSym hns hr).symm
    subst hrd
    by_cases hc : (decide (d = []) || (lookupFS fs d == some Node.dir)) = true
    · rw [if_pos hc] at h
      cases h
      rfl
    · rw [if_neg hc] at h; exact absurd h (by simp)

/-- A true `is_dir` means the path stats to a directory. -/
theorem isDirB_statNode {fs : FS} {p : FPath} (h : isDirB fs p = true) :
    statNode fs p = some Node.dir := by
  unfold isDirB at h
  rcases hs : statNode fs p with _ | n
  · rw [hs] at h; exact absurd h (by simp)
  · rw [hs] at h
    cases n with
    | dir => rfl
    | file c => exact absurd h (by simp)
    | symlink t => exact absurd h (by simp)

/-- The selected subdirectories of a listing: pairwise distinct, literal
children of the listed directory, and directory entries. -/
theorem subdirsOf_facts {fs : FS} (hns : NoSymlinksFS fs) (hnd : NodupKeysFS fs)
    {d : FPath} {entries : List FPath} (hit : iterdir fs d = some entries) :
    (subdirsOf fs entries).Nodup ∧
    ∀ x ∈ subdirsOf fs entries, (∃ n, x = d ++ [n]) ∧ x ∈ dirPathsFin fs := by
  have hent := iterdir_noSym hns hit
  constructor
  · apply List.Nodup.filter
    rw [hent]
    exact ((childNames_nodup hnd d).map (fun n m hnm => by simpa using hnm))
  · intro x hx
    have hxe : x ∈ entries := List.mem_of_mem_filter hx
    have hdir : isDirB fs x = true := by
      have := (List.mem_filter.mp hx).2
      simpa using this
    rw [hent] at hxe
    obtain ⟨n, _, hn⟩ := List.mem_map.mp hxe
    refine ⟨⟨n, hn.symm⟩, ?_⟩
    have hsn := isDirB_statNode hdir
    rcases statNode_noSym_lookup hns hsn with ⟨hx0, _⟩ | hlk
    · rw [← hn] at hx0
      exact absurd hx0 (by simp)
    · exact mem_dirPathsFin.mpr (lookup_some_mem hlk)

/-- The measure contribution of the selected subdirectories is bounded by
the strict-descendant count of the popped directory. -/
theorem subdirs_sum_le {fs : FS} (hns : NoSymlinksFS fs) (hnd : NodupKeysFS fs)
    {d : FPath} {entries : List FPath} (hit : iterdir fs d = some entries) :
    measureQ fs (subdirsOf fs entries) ≤ descT fs d := by
  obtain ⟨hnodup, hmem⟩ := subdirsOf_facts hns hnd hit
  have hsum : measureQ fs (subdirsOf fs entries)
      = ((subdirsOf fs entries).toFinset).sum (fun x => 1 + descT fs x) := by
    unfold measureQ
    rw [List.sum_toFinset _ hnodup]
  rw [hsum]
  have hcard : ∀ x ∈ (subdirsOf fs entries).toFinset,
      1 + descT fs x = ((dirPathsFin fs).filter (fun p => x <+: p)).card := by
    intro x hx
    have hxd := (hmem x (List.mem_toFinset.mp hx)).2
    have hins : (dirPathsFin fs).filter (fun p => x <+: p)
        = insert x ((dirPathsFin fs).filter (fun p => x <+: p ∧ p ≠ x)) := by
      ext p
      simp only [Finset.mem_filter, Finset.mem_insert]
      constructor
      · rintro ⟨hp, hxp⟩
        by_cases hpx : p = x
        · exact Or.inl hpx
        · exact Or.inr ⟨hp, hxp, hpx⟩
      · rintro (hpe | ⟨hp, hxp, _⟩)
        · rw [hpe]
          exact ⟨hxd, List.prefix_refl x⟩
        · exact ⟨hp, hxp⟩
    rw [hins, Finset.card_insert_of_not_mem]
    · unfold descT
      omega
    · simp
  rw [Finset.sum_congr rfl hcard]
  have hdisj : ∀ x ∈ (subdirsOf fs entries).toFinset,
      ∀ y ∈ (subdirsOf fs entries).toFinset, x ≠ y →
      Disjoint ((dirPathsFin fs).filter (fun p => x <+: p))
        ((dirPathsFin fs).filter (fun p => y <+: p)) := by
    intro x hx y hy hxy
    rw [Finset.disjoint_left]
    intro p hpx hpy
    obtain ⟨n, hn⟩ := (hmem x (List.mem_toFinset.mp hx)).1
    obtain ⟨m, hm⟩ := (hmem y (List.mem_toFinset.mp hy)).1
    have hxp := (Finset.mem_filter.mp hpx).2
    have hyp := (Finset.mem_filter.mp hpy).2
    have hlen : x.length = y.length := by rw [hn, hm]; simp
    rcases List.prefix_or_prefix_of_prefix hxp hyp with hc | hc
    · exact hxy (List.IsPrefix.eq_of_length hc hlen)
    · exact hxy (List.IsPrefix.eq_of_length hc hlen.symm).symm
  rw [← Finset.card_biUnion hdisj]
  apply Finset.card_le_card
  intro p hp
  obtain ⟨x, hx, hpx⟩ := Finset.mem_biUnion.mp hp
  obtain ⟨⟨n, hn⟩, _⟩ := hmem x (List.mem_toFinset.mp hx)
  obtain ⟨hpmem, hxp⟩ := Finset.mem_filter.mp hpx
  refine Finset.mem_filter.mpr ⟨hpmem, ?_, ?_⟩
  · refine List.IsPrefix.trans ?_ hxp
    rw [hn]
    exact List.prefix_append d [n]
  · intro hpd
    subst hpd
    have := hxp.length_le
    rw [hn] at this
    simp at this

/-- The BFS loop terminates: with enough fuel (one unit per pending
directory plus one per directory entry strictly below it) the loop
returns, on a symlink-free filesystem with pairwise-distinct keys whose
pending directories all lie under a start root disjoint from the target
root. -/
theorem runLoop_total {ext : Externals} {target : FPath}
    {outliers : Option FPath} {start : FPath}
    (h1 : ¬ start <+: target) (h2 : ¬ target <+: start) :
    ∀ (fuel : Nat) (dirs : List FPath) (fs : FS) (tr : List TStep),
      NoSymlinksFS fs → NodupKeysFS fs →
      (∀ d ∈ dirs, start <+: d) →
      measureQ fs dirs < fuel →
      (runLoop ext target outliers fuel dirs fs tr).isSome := by
  intro fuel
  induction fuel with
  | zero =>
    intro dirs fs tr _ _ _ hm
    exact absurd hm (by omega)
  | succ fuel ih =>
    intro dirs fs tr hns hnd hdirs hm
    cases dirs with
    | nil =>
      unfold runLoop
      simp
    | cons d rest =>
      unfold runLoop
      rcases hit : iterdir fs d with _ | entries
      · simp
      · simp only []
        rcases hpf : processFiles ext target outliers fs (filesSel fs entries)
            with e | pr
        · simp
        · rcases pr with ⟨fs', steps⟩
          simp only []
          obtain ⟨hns', hnd', hmono, hsub⟩ := processFiles_dirs hns hnd hpf
          obtain ⟨hnodupS, hmemS⟩ := subdirsOf_facts hns hnd hit
          have hdirs' : ∀ x ∈ rest ++ subdirsOf fs entries, start <+: x := by
            intro x hx
            rcases List.mem_append.mp hx with hx | hx
            · exact hdirs x (List.mem_cons_of_mem d hx)
            · obtain ⟨⟨n, hn⟩, _⟩ := hmemS x hx
              rw [hn]
              exact (hdirs d (List.mem_cons_self d rest)).trans
                (List.prefix_append d [n])
          apply ih _ fs' _ hns' hnd' hdirs'
          have hinv : ∀ x ∈ rest ++ subdirsOf fs entries, descT fs' x = descT fs x :=
            fun x hx => descT_inv h1 h2 (hdirs' x hx) hmono hsub
          rw [measureQ_congr hinv, measureQ_append]
          have hle := subdirs_sum_le hns hnd hit
          have hm' : (1 + descT fs d) + measureQ fs rest < fuel + 1 := by
            rw [← measureQ_cons]
            exact hm
          omega

/-- C8: the breadth-first traversal terminates - some fuel makes the run
return - for every source tree given as a symlink-free filesystem with
pairwise-distinct entry paths and a target root disjoint from the
starting root.  (Each popped directory contributes its subdirectories,
which lie strictly below it; directories the run creates lie under the
target root and are never pending, so the pending list's measure strictly
decreases each iteration until the list is empty.) -/
theorem claim_C8 (ext : Externals) (start targetDir : FPath) (fs0 : FS)
    (hns : NoSymlinksFS fs0) (hnd : NodupKeysFS fs0)
    (h1 : ¬ start <+: targetDir) (h2 : ¬ targetDir <+: start) :
    ∃ fuel, (runProg ext start targetDir fs0 fuel).isSome := by
  unfold runProg
  rcases hc1 : createIfRequired fs0 targetDir with e | pr
  · exact ⟨1, by simp⟩
  · rcases pr with ⟨fs1, o⟩
    have hnd1 : NodupKeysFS fs1 := createIfRequired_nodup hc1 hnd
    obtain ⟨hor1, ds1, hds1, hall1, hpre1⟩ := createIfRequired_cases hc1
    have hns1 : NoSymlinksFS fs1 := by
      rw [hds1]
      exact noSym_append hns hall1
    rcases o with _ | target
    · exact ⟨1, by simp⟩
    · rcases hc2 : createIfRequired fs1 (target ++ ["outliers"]) with e | pr2
      · exact ⟨1, by simp [hc2]⟩
      · rcases pr2 with ⟨fs2, outliers⟩
        have hnd2 : NodupKeysFS fs2 := createIfRequired_nodup hc2 hnd1
        obtain ⟨hor2, ds2, hds2, hall2, hpre2⟩ := createIfRequired_cases hc2
        have hns2 : NoSymlinksFS fs2 := by
          rw [hds2]
          exact noSym_append hns1 hall2
        have htv : targetDir = target := by
          rcases hor1 with ⟨hn, _⟩ | hs
          · exact absurd hn (by simp)
          · exact (Option.some.inj hs).symm
        subst htv
        refine ⟨measureQ fs2 [start] + 1, ?_⟩
        simp only [hc2]
        exact runLoop_total h1 h2 _ [start] fs2 [] hns2 hnd2 (by simp) (by omega)

/-- C8, witness: the disjoint-roots one-file tree terminates. -/
theorem claim_C8_witness :
    ∃ fuel, (runProg extPlace ["s"] ["t"] fsW1 fuel).isSome :=
  claim_C8 extPlace ["s"] ["t"] fsW1 (by decide) (by decide) (by decide) (by decide)
